import Mathlib

/-!
Verification development for the `BacktestExecClient` simulated execution
engine (`nautilus_trader/backtest/execution.pyx`).  The engine state and its
operations are shallowly embedded as pure Lean functions: prices are scaled
integers (`Int`), monetary amounts and quantities are exact rationals (`Rat`),
the stochastic `FillModel` is an oracle record of booleans, and the external
collaborators (exchange-rate calculator, commission calculator, rollover rate
source, execution database, clock/calendar arithmetic) are oracle functions in
a context record `Ctx`.  Emitted events are accumulated in a list.  The order
state transitions performed by the external `ExecutionEngine` in response to
emitted events are modelled from the spec (section 3, Lifecycles) by a
registry `order_states` updated at each emission, mirroring the fact that in
the source all dictionaries hold references to the same mutable `Order`
objects.
-/

namespace Backtest

/-! ## Association lists

Python `dict`s are modelled as insertion-ordered association lists.
`setA` mirrors `d[k] = v` (replace in place, else append); `eraseA`
mirrors `del d[k]` on a dict, removing every pair with the given key
(keys built by `setA` from the empty list are unique, so this agrees
with Python's single-key deletion). -/

def lookupA {α : Type} : List (Nat × α) → Nat → Option α
  | [], _ => none
  | p :: rest, k => if p.1 = k then some p.2 else lookupA rest k

def setA {α : Type} : List (Nat × α) → Nat → α → List (Nat × α)
  | [], k, v => [(k, v)]
  | p :: rest, k, v => if p.1 = k then (k, v) :: rest else p :: setA rest k v

def eraseA {α : Type} (l : List (Nat × α)) (k : Nat) : List (Nat × α) :=
  l.filter (fun p => p.1 ≠ k)

/-! ## Enumerations (nautilus_trader.model.c_enums) -/

inductive OrderSide
  | BUY
  | SELL
deriving DecidableEq

inductive OrderType
  | MARKET
  | LIMIT
  | STOP
  | STOP_LIMIT
  | MIT
deriving DecidableEq

inductive OrderState
  | INITIALIZED
  | SUBMITTED
  | ACCEPTED
  | WORKING
  | FILLED
  | CANCELLED
  | REJECTED
  | EXPIRED
deriving DecidableEq

inductive MarketPosition
  | LONG
  | SHORT
  | FLAT
deriving DecidableEq

inductive SecurityType
  | FOREX
  | OTHER
deriving DecidableEq

inductive PriceType
  | BID
  | ASK
  | MID
deriving DecidableEq

/-- `STOP_ORDER_TYPES = {STOP, STOP_LIMIT, MIT}`. -/
def stop_order_types : OrderType → Bool
  | .STOP => true
  | .STOP_LIMIT => true
  | .MIT => true
  | _ => false

/-! ## Data model -/

/-- A market tick: symbol, best bid, best ask, timestamp.  Symbols are `Nat`
codes, prices are scaled integers, timestamps are integers. -/
structure Tick where
  symbol : Nat
  bid : Int
  ask : Int
  timestamp : Int
deriving DecidableEq

/-- An order.  `price` is meaningful for non-MARKET orders.  The mutable
`state` of the Python object lives in the engine's `order_states` registry
(see module docstring), not here. -/
structure Order where
  id : Nat
  symbol : Nat
  side : OrderSide
  type : OrderType
  quantity : Rat
  price : Int
  expire_time : Option Int
deriving DecidableEq

/-- Static per-symbol instrument metadata. -/
structure Instrument where
  quote_currency : Nat
  security_type : SecurityType
  tick_size : Int
  min_stop_distance : Nat
  min_limit_distance : Nat
  min_trade_size : Rat
  max_trade_size : Rat

/-- A position from the execution database (external collaborator). -/
structure Position where
  symbol : Nat
  quantity : Rat
  average_open_price : Rat
  market_position : MarketPosition
  entry_direction : OrderSide

/-- The stochastic fill model, as a deterministic oracle: the values its three
predicates return when consulted. -/
structure FillModel where
  slipped : Bool
  stop_filled : Bool
  limit_filled : Bool

/-- The events the client emits into the execution engine
(`handle_event`). -/
inductive Event
  | OrderSubmitted (order_id : Nat)
  | OrderAccepted (order_id : Nat)
  | OrderRejected (order_id : Nat) (reason : String)
  | OrderWorking (order_id : Nat)
  | OrderFilled (order_id : Nat) (symbol : Nat) (side : OrderSide)
      (quantity : Rat) (fill_price : Int)
  | OrderModified (order_id : Nat) (modified_quantity : Rat)
      (modified_price : Int)
  | OrderCancelled (order_id : Nat)
  | OrderExpired (order_id : Nat)
  | OrderCancelReject (order_id : Nat) (response : String) (reason : String)
  | AccountState (capital : Rat) (cash_start_day : Rat)
      (cash_activity_day : Rat)
deriving DecidableEq

/-- Static configuration plus the external collaborators, as oracles.
`rollover_spread` is an engine attribute initialised to `0.0` in the source
constructor and never reassigned; it is kept general here.  `day_of`,
`rollover_time_of` and `isoweekday_of` abstract the calendar/timezone
arithmetic performed with `datetime`/`pytz` in `process_tick`. -/
structure Ctx where
  instruments : Nat → Instrument
  frozen_account : Bool
  starting_capital : Rat
  account_currency : Nat
  fill_model : FillModel
  get_rate : Nat → Nat → PriceType → List (Nat × Rat) → List (Nat × Rat) → Rat
  commission_calc : Nat → Rat → Int → Rat → Rat
  overnight_rate : Nat → Int → Rat
  get_position_for_order : Nat → Option Position
  get_positions_open : Int → List Position
  has_exec_db : Bool
  rollover_spread : Rat
  day_of : Int → Int
  rollover_time_of : Int → Int
  isoweekday_of : Int → Int

/-- The engine state.

`fills_net` and `rollovers` are history variables: `fills_net` records the
net amount (pnl minus commission) of each closing fill exactly where
`adjust_account` computes it, and `rollovers` records each cumulative
rollover amount exactly where `apply_rollover_interest` books it.  They are
written nowhere else and mirror the sums in the spec's capital identity.

`account_cash_balance` mirrors the external `Account` object, which the
execution engine rebuilds from each emitted `AccountStateEvent`
(modelled from the spec: "Account state is fully derivable from the event
stream"); the source reads it as `self._account.cash_balance`.

`order_states` is the registry of order states maintained by the external
execution engine in response to emitted events (modelled from the spec's
order lifecycle); `aborted` records that the source would have raised an
uncaught exception (`Condition` failure, `KeyError`, `TypeError`). -/
structure EngineState where
  day_number : Int
  rollover_time : Option Int
  rollover_applied : Bool
  account_capital : Rat
  account_cash_start_day : Rat
  account_cash_activity_day : Rat
  account_cash_balance : Rat
  total_commissions : Rat
  total_rollover : Rat
  market : List (Nat × Tick)
  working_orders : List Order
  atomic_child_orders : List (Nat × List Order)
  oco_orders : List (Nat × Nat)
  order_states : List (Nat × OrderState)
  events : List Event
  fills_net : List Rat
  rollovers : List Rat
  aborted : Bool

/-- The state built by the constructor (`__init__`). -/
def initState (ctx : Ctx) : EngineState where
  day_number := 0
  rollover_time := none
  rollover_applied := false
  account_capital := ctx.starting_capital
  account_cash_start_day := ctx.starting_capital
  account_cash_activity_day := 0
  account_cash_balance := ctx.starting_capital
  total_commissions := 0
  total_rollover := 0
  market := []
  working_orders := []
  atomic_child_orders := []
  oco_orders := []
  order_states := []
  events := []
  fills_net := []
  rollovers := []
  aborted := false

/-! ## Derived per-symbol tables (`_set_slippages`, `_set_min_distances`) -/

/-- `slippage_index[symbol] = instrument.tick_size`. -/
def slippage (ctx : Ctx) (symbol : Nat) : Int :=
  (ctx.instruments symbol).tick_size

/-- `min_stops[symbol] = tick_size * min_stop_distance`. -/
def min_stop (ctx : Ctx) (symbol : Nat) : Int :=
  (ctx.instruments symbol).tick_size * (ctx.instruments symbol).min_stop_distance

/-- `min_limits[symbol] = tick_size * min_limit_distance`. -/
def min_limit (ctx : Ctx) (symbol : Nat) : Int :=
  (ctx.instruments symbol).tick_size * (ctx.instruments symbol).min_limit_distance

/-- `_build_current_bid_rates`. -/
def build_bid_rates (market : List (Nat × Tick)) : List (Nat × Rat) :=
  market.map (fun p => (p.1, (p.2.bid : Rat)))

/-- `_build_current_ask_rates`. -/
def build_ask_rates (market : List (Nat × Tick)) : List (Nat × Rat) :=
  market.map (fun p => (p.1, (p.2.ask : Rat)))

/-! ## Order-state registry (external execution engine, modelled from spec) -/

/-- Modelled from the spec: the state transition the external execution
engine applies to the shared `Order` object on handling each event kind
(spec section 3, Lifecycles).  `OrderModified`, `OrderCancelReject` and
`AccountStateEvent` do not change an order's state. -/
def state_of_event : Event → Option (Nat × OrderState)
  | .OrderSubmitted i => some (i, .SUBMITTED)
  | .OrderAccepted i => some (i, .ACCEPTED)
  | .OrderRejected i _ => some (i, .REJECTED)
  | .OrderWorking i => some (i, .WORKING)
  | .OrderFilled i _ _ _ _ => some (i, .FILLED)
  | .OrderCancelled i => some (i, .CANCELLED)
  | .OrderExpired i => some (i, .EXPIRED)
  | .OrderModified _ _ _ => none
  | .OrderCancelReject _ _ _ => none
  | .AccountState _ _ _ => none

/-- `self._exec_engine.handle_event(e)`: append the event to the stream and
apply the external side effects modelled from the spec (order-state registry
update; `Account` rebuilt from `AccountStateEvent`). -/
def emit (s : EngineState) (e : Event) : EngineState :=
  let s1 := { s with events := s.events ++ [e] }
  let s2 := match state_of_event e with
    | some (i, st) => { s1 with order_states := setA s1.order_states i st }
    | none => s1
  match e with
  | .AccountState capital _ _ => { s2 with account_cash_balance := capital }
  | _ => s2

/-- The current state of the order with the given id (orders start
INITIALIZED). -/
def getState (s : EngineState) (i : Nat) : OrderState :=
  (lookupA s.order_states i).getD .INITIALIZED

/-- `Order.is_completed`: the order is in a terminal state. -/
def completed : OrderState → Bool
  | .FILLED => true
  | .CANCELLED => true
  | .REJECTED => true
  | .EXPIRED => true
  | _ => false

/-! ## Working-order map helpers (insertion-ordered, keyed by `Order.id`) -/

def findW (l : List Order) (i : Nat) : Option Order :=
  l.find? (fun o => o.id = i)

def eraseW (l : List Order) (i : Nat) : List Order :=
  l.filter (fun o => o.id ≠ i)

/-! ## Price validation and marginal-fill helpers -/

/-- The boolean value of `_check_valid_price(order, current_market)`:
`true` when the price is valid.  MARKET (and any non-STOP, non-LIMIT)
orders fall through every branch and are always valid. -/
def check_valid_price (ctx : Ctx) (order : Order) (current_market : Tick) : Bool :=
  match order.side with
  | .BUY =>
      if stop_order_types order.type then
        if order.price < current_market.ask + min_stop ctx order.symbol then false else true
      else if order.type = .LIMIT then
        if order.price > current_market.bid - min_limit ctx order.symbol then false else true
      else true
  | .SELL =>
      if stop_order_types order.type then
        if order.price > current_market.bid - min_stop ctx order.symbol then false else true
      else if order.type = .LIMIT then
        if order.price < current_market.ask + min_limit ctx order.symbol then false else true
      else true

/-- The reason string `_check_valid_price` passes to `_reject_order` in each
invalid branch (the source interpolates the offending prices; the fixed
prefixes are kept). -/
def invalid_price_reason (order : Order) : String :=
  match order.side with
  | .BUY =>
      if stop_order_types order.type then
        "BUY STOP order price is too far from the market"
      else "BUY LIMIT order price is too far from the market"
  | .SELL =>
      if stop_order_types order.type then
        "SELL STOP order price is too far from the market"
      else "SELL LIMIT order price is too far from the market"

/-- `_is_marginal_buy_stop_fill`. -/
def is_marginal_buy_stop_fill (ctx : Ctx) (order_price : Int) (current_market : Tick) : Bool :=
  current_market.ask = order_price && ctx.fill_model.stop_filled

/-- `_is_marginal_buy_limit_fill`. -/
def is_marginal_buy_limit_fill (ctx : Ctx) (order_price : Int) (current_market : Tick) : Bool :=
  current_market.ask = order_price && ctx.fill_model.limit_filled

/-- `_is_marginal_sell_stop_fill`. -/
def is_marginal_sell_stop_fill (ctx : Ctx) (order_price : Int) (current_market : Tick) : Bool :=
  current_market.bid = order_price && ctx.fill_model.stop_filled

/-- `_is_marginal_sell_limit_fill`. -/
def is_marginal_sell_limit_fill (ctx : Ctx) (order_price : Int) (current_market : Tick) : Bool :=
  current_market.bid = order_price && ctx.fill_model.limit_filled

/-! ## PnL -/

/-- `calculate_pnl`: `none` models the `ValueError` raised for a FLAT
direction. -/
def calculate_pnl (direction : MarketPosition) (open_price close_price : Rat)
    (quantity : Rat) (exchange_rate : Rat) : Option Rat :=
  match direction with
  | .LONG => some ((close_price - open_price) * quantity * exchange_rate)
  | .SHORT => some ((open_price - close_price) * quantity * exchange_rate)
  | .FLAT => none

/-! ## Simple event-emitting helpers -/

/-- `_accept_order`. -/
def accept_order (s : EngineState) (order : Order) : EngineState :=
  emit s (.OrderAccepted order.id)

/-- `_cancel_reject_order`. -/
def cancel_reject_order (s : EngineState) (order_id : Nat)
    (response reason : String) : EngineState :=
  emit s (.OrderCancelReject order_id response reason)

/-- `_reject_oco_order(order, oco_order_id)`: emit a rejection for the latent
OCO order. -/
def reject_oco_order (s : EngineState) (order : Order) (oco_order_id : Nat) : EngineState :=
  emit s (.OrderRejected order.id ("OCO order rejected from " ++ toString oco_order_id))

/-! ## OCO and atomic-children linkage -/

/-- The paired deletion `del oco[order_id]; del oco[oco_order_id]` of
`_check_oco_order`.  The second `del` raises on a missing key, modelled by
the `aborted` flag. -/
def oco_pair_remove (s : EngineState) (order_id oco_order_id : Nat) : EngineState :=
  if (lookupA (eraseA s.oco_orders order_id) oco_order_id).isSome then
    { s with oco_orders := eraseA (eraseA s.oco_orders order_id) oco_order_id }
  else { s with oco_orders := eraseA s.oco_orders order_id, aborted := true }

/-- The latent-child walk of `_check_oco_order`: reject any atomic child
order equal to the OCO partner (`Order.equals` compares ids).  The walk only
emits events, so threading the state through the snapshot of the bracket map
matches the source iteration. -/
def oco_reject_latent (s : EngineState) (order_id oco_order_id : Nat) : EngineState :=
  s.atomic_child_orders.foldl
    (fun t pr => pr.2.foldl
      (fun t' child =>
        if child.id = oco_order_id then reject_oco_order t' child order_id else t') t)
    s

/-- The working-partner cancellation of `_check_oco_order`. -/
def oco_cancel_working (s : EngineState) (oco_order_id : Nat) : EngineState :=
  match findW s.working_orders oco_order_id with
  | some w =>
      { emit s (.OrderCancelled w.id) with
          working_orders := eraseW (emit s (.OrderCancelled w.id)).working_orders oco_order_id }
  | none => s

/-- `_check_oco_order(order_id)`: if the id participates in an OCO pair,
erase both entries, reject any latent atomic child equal to the partner,
and cancel the partner if it is working. -/
def check_oco_order (s : EngineState) (order_id : Nat) : EngineState :=
  match lookupA s.oco_orders order_id with
  | none => s
  | some oco_order_id =>
      oco_cancel_working
        (oco_reject_latent (oco_pair_remove s order_id oco_order_id) order_id oco_order_id)
        oco_order_id

/-- `_clean_up_child_orders`. -/
def clean_up_child_orders (s : EngineState) (order_id : Nat) : EngineState :=
  { s with atomic_child_orders := eraseA s.atomic_child_orders order_id }

/-- `_reject_order`: emit the rejection, then run the OCO check and child
clean-up cascade. -/
def reject_order (s : EngineState) (order : Order) (reason : String) : EngineState :=
  clean_up_child_orders
    (check_oco_order (emit s (.OrderRejected order.id reason)) order.id) order.id

/-- The linkage-removal step of `_expire_order`: for an atomic parent,
remove the OCO pair between its (never worked) children, otherwise run the
normal OCO check.  `children[0]` on an empty list raises in Python, modelled
by `aborted`, as is a `del` on a missing key. -/
def expire_oco_removal (s : EngineState) (order_id : Nat) : EngineState :=
  match lookupA s.atomic_child_orders order_id with
  | some children =>
      match children with
      | [] => { s with aborted := true }
      | first_child :: _ =>
          match lookupA s.oco_orders first_child.id with
          | some other_oco_order_id =>
              if (lookupA (eraseA s.oco_orders first_child.id) other_oco_order_id).isSome then
                { s with oco_orders :=
                    eraseA (eraseA s.oco_orders first_child.id) other_oco_order_id }
              else { s with oco_orders := eraseA s.oco_orders first_child.id, aborted := true }
          | none => s
  | none => check_oco_order s order_id

/-- `_expire_order`: emit the expiry, run the linkage removal, then clean up
the bracket. -/
def expire_order (s : EngineState) (order : Order) : EngineState :=
  clean_up_child_orders
    (expire_oco_removal (emit s (.OrderExpired order.id)) order.id) order.id

/-! ## Account adjustment on closing fills -/

/-- `adjust_account(event, position)`, with the fill event's fields passed
explicitly.  Computes the exchange rate and commission through the oracles,
accumulates the (negative-accumulating) commission total, records the net
amount in the `fills_net` history, and updates capital / daily activity and
emits an `AccountStateEvent` only when the account is not frozen. -/
def adjust_account (ctx : Ctx) (s : EngineState) (symbol : Nat)
    (order_side : OrderSide) (average_price : Int) (filled_quantity : Rat)
    (position : Position) : EngineState :=
  let instrument := ctx.instruments symbol
  let exchange_rate := ctx.get_rate instrument.quote_currency ctx.account_currency
    (if order_side = .SELL then .BID else .ASK)
    (build_bid_rates s.market) (build_ask_rates s.market)
  match calculate_pnl position.market_position position.average_open_price
      (average_price : Rat) filled_quantity exchange_rate with
  | none => { s with aborted := true }
  | some pnl0 =>
      let commission := ctx.commission_calc symbol filled_quantity average_price exchange_rate
      let pnl := pnl0 - commission
      let s1 := { s with
        total_commissions := s.total_commissions - commission,
        fills_net := s.fills_net ++ [pnl] }
      if ctx.frozen_account then s1
      else
        let new_capital := s1.account_capital + pnl
        let new_activity := s1.account_cash_activity_day + pnl
        let s2 := { s1 with
          account_capital := new_capital,
          account_cash_activity_day := new_activity }
        emit s2 (.AccountState new_capital s2.account_cash_start_day new_activity)

/-! ## Rollover interest -/

/-- The bank/broker spread markup applied to a rollover amount:
`rollover - rollover * rollover_spread`. -/
def spread_markup (ctx : Ctx) (rollover : Rat) : Rat :=
  rollover - rollover * ctx.rollover_spread

/-- The mid-price lookup of the rollover loop, with its per-symbol cache
(`mid_prices.get(symbol, 0.0)`; a cached 0.0 triggers a recompute).  `none`
models the `KeyError` raised when the symbol has no market tick. -/
def rollover_mid (s : EngineState) (mid_prices : List (Nat × Rat)) (symbol : Nat) :
    Option (Rat × List (Nat × Rat)) :=
  if (lookupA mid_prices symbol).getD 0 = 0 then
    match lookupA s.market symbol with
    | none => none
    | some market =>
        some (((market.ask : Rat) + (market.bid : Rat)) / 2,
          setA mid_prices symbol (((market.ask : Rat) + (market.bid : Rat)) / 2))
  else some ((lookupA mid_prices symbol).getD 0, mid_prices)

/-- The per-position loop of `apply_rollover_interest`: accumulate the
cumulative rollover `mid × quantity × overnight rate × exchange rate` (with
spread markup) over open FX positions. -/
def rollover_loop (ctx : Ctx) (s : EngineState) (timestamp : Int) :
    List Position → Rat → List (Nat × Rat) → Option Rat
  | [], acc, _ => some acc
  | position :: rest, acc, mid_prices =>
      if (ctx.instruments position.symbol).security_type = .FOREX then
        match rollover_mid s mid_prices position.symbol with
        | none => none
        | some (mid_price, mid_prices') =>
            rollover_loop ctx s timestamp rest
              (acc + spread_markup ctx
                (mid_price * position.quantity * ctx.overnight_rate position.symbol timestamp *
                  ctx.get_rate (ctx.instruments position.symbol).quote_currency
                    ctx.account_currency .MID (build_bid_rates s.market)
                    (build_ask_rates s.market)))
              mid_prices'
      else rollover_loop ctx s timestamp rest acc mid_prices

/-- The Wednesday/Friday tripling: `* 3` when the ISO weekday is 3 or 5. -/
def triple_weekday (iso_week_day : Int) (r : Rat) : Rat :=
  if iso_week_day = 3 then r * 3 else if iso_week_day = 5 then r * 3 else r

/-- The booking tail of `apply_rollover_interest`: always accumulate
`total_rollover` (recording the amount in the `rollovers` history); update
capital / daily activity and emit an `AccountStateEvent` only when the
account is not frozen. -/
def book_rollover (ctx : Ctx) (s : EngineState) (rollover_final : Rat) : EngineState :=
  if ctx.frozen_account then
    { s with
      total_rollover := s.total_rollover + rollover_final,
      rollovers := s.rollovers ++ [rollover_final] }
  else
    emit
      { s with
        total_rollover := s.total_rollover + rollover_final,
        rollovers := s.rollovers ++ [rollover_final],
        account_capital := s.account_capital + rollover_final,
        account_cash_activity_day := s.account_cash_activity_day + rollover_final }
      (.AccountState (s.account_capital + rollover_final) s.account_cash_start_day
        (s.account_cash_activity_day + rollover_final))

/-- `apply_rollover_interest(timestamp, iso_week_day)`: skips silently when
no execution database is registered; accumulates over open FX positions;
books triple on ISO weekday 3 (Wednesday) and 5 (Friday). -/
def apply_rollover_interest (ctx : Ctx) (s : EngineState) (timestamp : Int)
    (iso_week_day : Int) : EngineState :=
  if ctx.has_exec_db = false then s
  else
    match rollover_loop ctx s timestamp (ctx.get_positions_open timestamp) 0 [] with
    | none => { s with aborted := true }
    | some rollover_cumulative =>
        book_rollover ctx s (triple_weekday iso_week_day rollover_cumulative)

/-! ## The mutually recursive pair `_process_order` / `_fill_order`

The source recursion (`_fill_order` processes atomic children through
`_process_order`, which can fill a MARKET child through `_fill_order`) is
not structurally terminating — a crafted id collision makes the Python
re-enter the same bracket forever — so the pair is embedded as one function
over a fuel parameter; exhausted fuel is modelled as divergence (`aborted`).
All claim theorems hold for every (respectively, every sufficient) fuel. -/

inductive OrderCall
  | process (order : Order)
  | fill (order : Order) (fill_price : Int)

/-- The MARKET-order immediate fill of `_process_order`: BUY fills at the
ask, SELL at the bid, plus slippage when the fill model slips. -/
def market_fill (rec : Ctx → EngineState → OrderCall → EngineState)
    (ctx : Ctx) (s : EngineState) (order : Order) (current_market : Tick) : EngineState :=
  match order.side with
  | .BUY =>
      rec ctx s (.fill order
        (if ctx.fill_model.slipped then current_market.ask + slippage ctx order.symbol
         else current_market.ask))
  | .SELL =>
      rec ctx s (.fill order
        (if ctx.fill_model.slipped then current_market.bid - slippage ctx order.symbol
         else current_market.bid))

/-- The working-placement tail of `_process_order`: insert into
`working_orders` and emit `OrderWorking`. -/
def place_working (s : EngineState) (order : Order) : EngineState :=
  emit { s with working_orders := s.working_orders ++ [order] } (.OrderWorking order.id)

/-- The body of `_process_order(order)`, with `rec` the recursive
continuation.  The duplicate-id `Condition` raises (aborts); size, market
and price checks reject; MARKET orders are accepted and fill immediately;
other orders are accepted and become working. -/
def process_body (rec : Ctx → EngineState → OrderCall → EngineState)
    (ctx : Ctx) (s : EngineState) (order : Order) : EngineState :=
  if (findW s.working_orders order.id).isSome then { s with aborted := true }
  else if order.quantity > (ctx.instruments order.symbol).max_trade_size then
    reject_order s order "order quantity exceeds the maximum trade size"
  else if order.quantity < (ctx.instruments order.symbol).min_trade_size then
    reject_order s order "order quantity is less than the minimum trade size"
  else
    match lookupA s.market order.symbol with
    | none => reject_order s order "no market"
    | some current_market =>
        if check_valid_price ctx order current_market = false then
          reject_order s order (invalid_price_reason order)
        else if order.type = .MARKET then
          market_fill rec ctx (accept_order s order) order current_market
        else place_working (accept_order s order) order

/-- The position-closing account adjustment at the start of `_fill_order`:
applied when a position exists for the order id with the opposite entry
direction. -/
def fill_adjust (ctx : Ctx) (s : EngineState) (order : Order) (fill_price : Int) :
    EngineState :=
  match ctx.get_position_for_order order.id with
  | some position =>
      if position.entry_direction ≠ order.side then
        adjust_account ctx s order.symbol order.side fill_price order.quantity position
      else s
  | none => s

/-- The bracket discard at the end of `_fill_order`: `del` on the bracket
raises if a child's processing already removed it (modelled by `aborted`). -/
def fill_discard (s : EngineState) (order_id : Nat) : EngineState :=
  if (lookupA s.atomic_child_orders order_id).isSome then
    { s with atomic_child_orders := eraseA s.atomic_child_orders order_id }
  else { s with aborted := true }

/-- The atomic-children tail of `_fill_order`: process every non-terminal
child of the filled order's bracket, then discard the bracket. -/
def fill_children (rec : Ctx → EngineState → OrderCall → EngineState)
    (ctx : Ctx) (s : EngineState) (order : Order) : EngineState :=
  match lookupA s.atomic_child_orders order.id with
  | some children =>
      fill_discard
        (children.foldl
          (fun t child =>
            if completed (getState t child.id) then t else rec ctx t (.process child))
          s)
        order.id
  | none => s

/-- The body of `_fill_order(order, fill_price)`, with `rec` the recursive
continuation: adjust the account first when the fill closes an existing
opposite-direction position, emit the fill, run the OCO check, then work
the atomic children. -/
def fill_body (rec : Ctx → EngineState → OrderCall → EngineState)
    (ctx : Ctx) (s : EngineState) (order : Order) (fill_price : Int) : EngineState :=
  fill_children rec ctx
    (check_oco_order
      (emit (fill_adjust ctx s order fill_price)
        (.OrderFilled order.id order.symbol order.side order.quantity fill_price))
      order.id)
    order

/-- Fuel-indexed interpreter for the recursive pair. -/
def run_order : Nat → Ctx → EngineState → OrderCall → EngineState
  | 0, _, s, _ => { s with aborted := true }
  | fuel + 1, ctx, s, .process order => process_body (run_order fuel) ctx s order
  | fuel + 1, ctx, s, .fill order fill_price => fill_body (run_order fuel) ctx s order fill_price

/-! ## Tick processing (matching loop) -/

/-- The fill test of the matching loop, as the optional fill price: `some`
exactly when the order fills on this tick, carrying the price (order price
adjusted by slippage when the fill model slips). -/
def tick_fill_price (ctx : Ctx) (tick : Tick) (order : Order) : Option Int :=
  match order.side with
  | .BUY =>
      if stop_order_types order.type then
        if tick.ask ≥ order.price ∨ is_marginal_buy_stop_fill ctx order.price tick then
          some (if ctx.fill_model.slipped then order.price + slippage ctx order.symbol
                else order.price)
        else none
      else if order.type = .LIMIT then
        if tick.ask ≤ order.price ∨ is_marginal_buy_limit_fill ctx order.price tick then
          some (if ctx.fill_model.slipped then order.price + slippage ctx order.symbol
                else order.price)
        else none
      else none
  | .SELL =>
      if stop_order_types order.type then
        if tick.bid ≤ order.price ∨ is_marginal_sell_stop_fill ctx order.price tick then
          some (if ctx.fill_model.slipped then order.price - slippage ctx order.symbol
                else order.price)
        else none
      else if order.type = .LIMIT then
        if tick.bid ≥ order.price ∨ is_marginal_sell_limit_fill ctx order.price tick then
          some (if ctx.fill_model.slipped then order.price - slippage ctx order.symbol
                else order.price)
        else none
      else none

/-- `del self._working_orders[order.id]` in the fill branch of the loop
(raises on a missing key, modelled by `aborted`). -/
def tick_del_working (s : EngineState) (order_id : Nat) : EngineState :=
  if (findW s.working_orders order_id).isSome then
    { s with working_orders := eraseW s.working_orders order_id }
  else { s with aborted := true }

/-- The expiry check at the end of the matching-loop body (here the source
re-checks membership before deleting). -/
def tick_expiry (s : EngineState) (time_now : Int) (order : Order) : EngineState :=
  match order.expire_time with
  | some expire_time =>
      if time_now ≥ expire_time then
        if (findW s.working_orders order.id).isSome then
          expire_order { s with working_orders := eraseW s.working_orders order.id } order
        else s
      else s
  | none => s

/-- The body of the matching loop in `process_tick`, for one order of the
snapshot: skip orders of other symbols and orders whose state is no longer
WORKING; fill when the fill test fires, otherwise check expiry. -/
def tick_match_order (fuel : Nat) (ctx : Ctx) (s : EngineState) (tick : Tick)
    (time_now : Int) (order : Order) : EngineState :=
  if order.symbol ≠ tick.symbol then s
  else if getState s order.id ≠ .WORKING then s
  else
    match tick_fill_price ctx tick order with
    | some price => run_order fuel ctx (tick_del_working s order.id) (.fill order price)
    | none => tick_expiry s time_now order

/-- The new-day bookkeeping at the top of `process_tick`. -/
def tick_day (ctx : Ctx) (s : EngineState) (time_now : Int) : EngineState :=
  if s.day_number ≠ ctx.day_of time_now then
    { s with
      day_number := ctx.day_of time_now,
      account_cash_start_day := s.account_cash_balance,
      account_cash_activity_day := 0,
      rollover_applied := false,
      rollover_time := some (ctx.rollover_time_of time_now) }
  else s

/-- The rollover-interest check of `process_tick` (before the first day
boundary `rollover_time` is still `None` and the branch cannot fire, since
`day_number` starts at 0 while calendar days are 1-based). -/
def tick_rollover (ctx : Ctx) (s : EngineState) (time_now : Int) : EngineState :=
  match s.rollover_time with
  | some rollover_time =>
      if s.rollover_applied = false ∧ time_now ≥ rollover_time then
        { apply_rollover_interest ctx s time_now (ctx.isoweekday_of rollover_time) with
            rollover_applied := true }
      else s
  | none => s

/-- The working-order scan of `process_tick`, over a snapshot of the map. -/
def tick_scan (fuel : Nat) (ctx : Ctx) (s : EngineState) (tick : Tick) : EngineState :=
  if s.working_orders = [] then s
  else s.working_orders.foldl
    (fun t order => tick_match_order fuel ctx t tick tick.timestamp order) s

/-- `process_tick(tick)`: advance the clock, store the tick, run the
new-day bookkeeping and the rollover check, then scan a snapshot of the
working orders. -/
def process_tick (fuel : Nat) (ctx : Ctx) (s : EngineState) (tick : Tick) : EngineState :=
  tick_scan fuel ctx
    (tick_rollover ctx
      (tick_day ctx { s with market := setA s.market tick.symbol tick } tick.timestamp)
      tick.timestamp)
    tick

/-! ## Command handlers -/

/-- `account_inquiry`. -/
def account_inquiry (s : EngineState) : EngineState :=
  emit s (.AccountState s.account_cash_balance s.account_cash_start_day
    s.account_cash_activity_day)

/-- `submit_order(command)`. -/
def submit_order (fuel : Nat) (ctx : Ctx) (s : EngineState) (order : Order) : EngineState :=
  let s1 := emit s (.OrderSubmitted order.id)
  run_order fuel ctx s1 (.process order)

/-- `submit_atomic_order(command)`: collect the child list (stop-loss first,
optional take-profit second), insert the OCO pair when the take-profit
exists, record the bracket, then submit the entry. -/
def submit_atomic_order (fuel : Nat) (ctx : Ctx) (s : EngineState)
    (entry stop_loss : Order) (take_profit : Option Order) : EngineState :=
  let atomic_orders :=
    match take_profit with
    | some tp => [stop_loss, tp]
    | none => [stop_loss]
  let s1 :=
    match take_profit with
    | some tp =>
        { s with oco_orders := setA (setA s.oco_orders tp.id stop_loss.id) stop_loss.id tp.id }
    | none => s
  let s2 := { s1 with atomic_child_orders := setA s1.atomic_child_orders entry.id atomic_orders }
  submit_order fuel ctx s2 entry

/-- `cancel_order(command)`. -/
def cancel_order (s : EngineState) (order_id : Nat) : EngineState :=
  match findW s.working_orders order_id with
  | none => cancel_reject_order s order_id "cancel order" "order not found"
  | some order =>
      let s1 := emit s (.OrderCancelled order.id)
      let s2 := { s1 with working_orders := eraseW s1.working_orders order_id }
      check_oco_order s2 order_id

/-- `modify_order(command)`.  The zero-quantity branch of the source passes
the `Order` object to `_cancel_reject_order`, whose Cython signature
declares `OrderId order_id`; that call raises `TypeError`, modelled as
`aborted` (the intended `OrderCancelReject` event is never emitted).  The
market lookup `self._market[order.symbol]` raises when no tick has been
seen for the symbol. -/
def modify_order (ctx : Ctx) (s : EngineState) (order_id : Nat)
    (modified_quantity : Rat) (modified_price : Int) : EngineState :=
  match findW s.working_orders order_id with
  | none => cancel_reject_order s order_id "modify order" "order not found"
  | some order =>
      if modified_quantity = 0 then { s with aborted := true }
      else
        match lookupA s.market order.symbol with
        | none => { s with aborted := true }
        | some current_market =>
            if check_valid_price ctx order current_market = false then
              reject_order s order (invalid_price_reason order)
            else
              emit s (.OrderModified order.id modified_quantity modified_price)

/-! ## Reachability

One inductive relation, parameterised by admissibility conditions `W` (on
atomic submissions) and `V` (on plain submissions) so that each claim can
state the side conditions it assumes; instantiating both with trivially true
conditions gives plain reachability through the public interface. -/

inductive ReachableG (ctx : Ctx) (W : EngineState → Order → Order → Option Order → Prop)
    (V : EngineState → Order → Prop) : EngineState → Prop
  | init : ReachableG ctx W V (initState ctx)
  | tick {s} (fuel : Nat) (t : Tick) :
      ReachableG ctx W V s → ReachableG ctx W V (process_tick fuel ctx s t)
  | submit {s} (fuel : Nat) (order : Order) :
      ReachableG ctx W V s → V s order →
      ReachableG ctx W V (submit_order fuel ctx s order)
  | submit_atomic {s} (fuel : Nat) (entry stop_loss : Order) (take_profit : Option Order) :
      ReachableG ctx W V s → W s entry stop_loss take_profit →
      ReachableG ctx W V (submit_atomic_order fuel ctx s entry stop_loss take_profit)
  | cancel {s} (order_id : Nat) :
      ReachableG ctx W V s → ReachableG ctx W V (cancel_order s order_id)
  | modify {s} (order_id : Nat) (modified_quantity : Rat) (modified_price : Int) :
      ReachableG ctx W V s →
      ReachableG ctx W V (modify_order ctx s order_id modified_quantity modified_price)
  | inquiry {s} :
      ReachableG ctx W V s → ReachableG ctx W V (account_inquiry s)
  | adjust {s} (symbol : Nat) (order_side : OrderSide) (average_price : Int)
      (filled_quantity : Rat) (position : Position) :
      ReachableG ctx W V s →
      ReachableG ctx W V (adjust_account ctx s symbol order_side average_price
        filled_quantity position)
  | rollover {s} (timestamp iso_week_day : Int) :
      ReachableG ctx W V s →
      ReachableG ctx W V (apply_rollover_interest ctx s timestamp iso_week_day)

/-- The trivially-true admissibility conditions. -/
def Wtrue : EngineState → Order → Order → Option Order → Prop := fun _ _ _ _ => True

/-- The trivially-true submission condition. -/
def Vtrue : EngineState → Order → Prop := fun _ _ => True

/-! ## Association-list lemmas -/

theorem lookupA_setA_self {α : Type} (l : List (Nat × α)) (k : Nat) (v : α) :
    lookupA (setA l k v) k = some v := by
  induction l with
  | nil => simp [setA, lookupA]
  | cons p rest ih =>
      by_cases h : p.1 = k
      · simp [setA, h, lookupA]
      · simp [setA, h, lookupA, ih]

theorem lookupA_setA_of_ne {α : Type} (l : List (Nat × α)) (k j : Nat) (v : α)
    (h : j ≠ k) : lookupA (setA l k v) j = lookupA l j := by
  induction l with
  | nil => simp [setA, lookupA, Ne.symm h]
  | cons p rest ih =>
      by_cases hp : p.1 = k
      · subst hp
        simp [setA, lookupA, Ne.symm h]
      · simp only [setA, hp, if_false, lookupA, ih]

theorem lookupA_eraseA_self {α : Type} (l : List (Nat × α)) (k : Nat) :
    lookupA (eraseA l k) k = none := by
  induction l with
  | nil => simp [eraseA, lookupA]
  | cons p rest ih =>
      by_cases h : p.1 = k
      · simpa [eraseA, List.filter_cons, h] using ih
      · simpa [eraseA, List.filter_cons, h, lookupA] using ih

theorem lookupA_eraseA_of_ne {α : Type} (l : List (Nat × α)) (k j : Nat)
    (h : j ≠ k) : lookupA (eraseA l k) j = lookupA l j := by
  induction l with
  | nil => simp [eraseA, lookupA]
  | cons p rest ih =>
      by_cases hp : p.1 = k
      · subst hp
        have hpj : p.1 ≠ j := fun hh => h (hh ▸ rfl)
        simpa [eraseA, List.filter_cons, lookupA, hpj] using ih
      · simp only [eraseA, List.filter_cons, hp, decide_eq_true_eq, not_false_eq_true,
          decide_not, Bool.not_false, decide_eq_false_iff_not, if_true, lookupA]
        by_cases hj : p.1 = j
        · simp [hj]
        · simpa [eraseA, hj] using ih

theorem setA_eq_append {α : Type} (l : List (Nat × α)) (k : Nat) (v : α)
    (h : lookupA l k = none) : setA l k v = l ++ [(k, v)] := by
  induction l with
  | nil => simp [setA]
  | cons p rest ih =>
      by_cases hp : p.1 = k
      · simp [lookupA, hp] at h
      · simp [lookupA, hp] at h
        simp [setA, hp, ih h]

theorem lookupA_ne_none_of_mem {α : Type} {l : List (Nat × α)} {pr : Nat × α}
    (h : pr ∈ l) : lookupA l pr.1 ≠ none := by
  induction l with
  | nil => cases h
  | cons p rest ih =>
      rw [List.mem_cons] at h
      rcases h with h | h
      · subst h; simp [lookupA]
      · by_cases hp : p.1 = pr.1
        · simp [lookupA, hp]
        · simp only [lookupA, hp, if_false]
          exact ih h

theorem eraseA_sublist {α : Type} (l : List (Nat × α)) (k : Nat) :
    (eraseA l k).Sublist l :=
  List.filter_sublist l

theorem mem_of_mem_eraseA {α : Type} {l : List (Nat × α)} {k : Nat} {pr : Nat × α}
    (h : pr ∈ eraseA l k) : pr ∈ l ∧ pr.1 ≠ k := by
  have h2 := List.of_mem_filter h
  refine ⟨List.mem_of_mem_filter h, by simpa using h2⟩

/-! ## Working-order list lemmas -/

theorem findW_eraseW_self (l : List Order) (i : Nat) : findW (eraseW l i) i = none := by
  induction l with
  | nil => simp [eraseW, findW]
  | cons o rest ih =>
      by_cases h : o.id = i
      · rw [show eraseW (o :: rest) i = eraseW rest i by simp [eraseW, List.filter_cons, h]]
        exact ih
      · rw [show eraseW (o :: rest) i = o :: eraseW rest i by
          simp [eraseW, List.filter_cons, h]]
        simp only [findW, List.find?, h, decide_eq_false h]
        exact ih

theorem mem_eraseW_imp {l : List Order} {i : Nat} {o : Order}
    (h : o ∈ eraseW l i) : o ∈ l :=
  List.mem_of_mem_filter h

/-! ## A generic fold-preservation lemma -/

theorem foldl_preserve {α β : Type} {P : α → Prop} {f : α → β → α}
    (h : ∀ a b, P a → P (f a b)) :
    ∀ (l : List β) (a : α), P a → P (l.foldl f a) := by
  intro l
  induction l with
  | nil => intro a ha; simpa using ha
  | cons b rest ih => intro a ha; exact ih (f a b) (h a b ha)

/-! ## Concrete fixtures

A minimal concrete context and a small run used by the counterexample and
witness theorems: one FX instrument with unit tick size and zero minimum
distances, trivial oracle collaborators, a first tick establishing a market,
and a working BUY STOP order. -/

def inst0 : Instrument :=
  { quote_currency := 0
    security_type := .FOREX
    tick_size := 1
    min_stop_distance := 0
    min_limit_distance := 0
    min_trade_size := 1
    max_trade_size := 10 }

def ctx0 : Ctx :=
  { instruments := fun _ => inst0
    frozen_account := false
    starting_capital := 1000
    account_currency := 0
    fill_model := { slipped := false, stop_filled := false, limit_filled := false }
    get_rate := fun _ _ _ _ _ => 1
    commission_calc := fun _ _ _ _ => 0
    overnight_rate := fun _ _ => 0
    get_position_for_order := fun _ => none
    get_positions_open := fun _ => []
    has_exec_db := true
    rollover_spread := 0
    day_of := fun _ => 1
    rollover_time_of := fun _ => 999999
    isoweekday_of := fun _ => 1 }

def tick1 : Tick := ⟨7, 99, 100, 10⟩

def o1 : Order := ⟨1, 7, .BUY, .STOP, 5, 110, none⟩

def st1 : EngineState := process_tick 10 ctx0 (initState ctx0) tick1

def st2 : EngineState := submit_order 10 ctx0 st1 o1

def tick2 : Tick := ⟨7, 108, 110, 20⟩

def st3 : EngineState := process_tick 10 ctx0 st2 tick2

/-! ## C4 -/

/-- C4: `_check_valid_price` rejects a BUY STOP-kind order exactly when
`order.price < ask + min_stops[symbol]` (strict); at exact equality the
price is valid and the order is not rejected. -/
theorem buy_stop_price_validation (ctx : Ctx) (order : Order) (market : Tick)
    (hside : order.side = .BUY) (htype : stop_order_types order.type = true) :
    (check_valid_price ctx order market = false ↔
      order.price < market.ask + min_stop ctx order.symbol) ∧
    (order.price = market.ask + min_stop ctx order.symbol →
      check_valid_price ctx order market = true) := by
  constructor
  · simp only [check_valid_price, hside, htype, if_true]
    by_cases h : order.price < market.ask + min_stop ctx order.symbol <;> simp [h]
  · intro h
    simp only [check_valid_price, hside, htype, if_true]
    simp [h]

/-- An instrument with a nonzero minimum stop distance, for the C4 witness. -/
def inst4 : Instrument :=
  { inst0 with min_stop_distance := 2 }

def ctx4 : Ctx :=
  { ctx0 with instruments := fun _ => inst4 }

def o4 : Order := ⟨1, 7, .BUY, .STOP, 5, 102, none⟩

def t4 : Tick := ⟨7, 99, 100, 10⟩

theorem buy_stop_price_validation_witness :
    check_valid_price ctx4 o4 t4 = true :=
  (buy_stop_price_validation ctx4 o4 t4 rfl rfl).2 (by decide)

/-! ## C3 -/

/-- C3 (failing input): a working BUY STOP order whose price exactly equals
the incoming tick's ask is filled even though `FillModel.is_stop_filled`
returns `false` — the non-strict `tick.ask.ge(order.price)` trigger already
fires at equality, so the marginal fill-model gate never decides.  Evaluates
the embedded code at the concrete failing input. -/
theorem marginal_stop_fill_ignores_fill_model :
    ctx0.fill_model.stop_filled = false ∧
    tick2.ask = o1.price ∧
    findW st2.working_orders o1.id = some o1 ∧
    getState st2 o1.id = .WORKING ∧
    Event.OrderFilled o1.id o1.symbol .BUY o1.quantity o1.price ∈ st3.events := by
  refine ⟨rfl, rfl, by decide, by decide, by decide⟩

/-! ## C9 -/

/-- C9 (failing input): a `ModifyOrder` with zero modified quantity on a
working order.  The source passes the `Order` object to
`_cancel_reject_order`, whose Cython signature requires an `OrderId`, so the
call raises `TypeError` (modelled as `aborted`) instead of emitting the
intended `OrderCancelReject`; no event is emitted and the run aborts. -/
theorem zero_quantity_modify_aborts :
    (modify_order ctx0 st2 1 0 111).aborted = true ∧
    (modify_order ctx0 st2 1 0 111).events = st2.events ∧
    (modify_order ctx0 st2 1 0 111).working_orders = st2.working_orders := by
  refine ⟨by decide, by decide, by decide⟩

/-! ## Frame lemmas for `emit` -/

@[simp] theorem emit_events (s : EngineState) (e : Event) :
    (emit s e).events = s.events ++ [e] := by cases e <;> rfl

@[simp] theorem emit_working (s : EngineState) (e : Event) :
    (emit s e).working_orders = s.working_orders := by cases e <;> rfl

@[simp] theorem emit_oco (s : EngineState) (e : Event) :
    (emit s e).oco_orders = s.oco_orders := by cases e <;> rfl

@[simp] theorem emit_atomic (s : EngineState) (e : Event) :
    (emit s e).atomic_child_orders = s.atomic_child_orders := by cases e <;> rfl

@[simp] theorem emit_market (s : EngineState) (e : Event) :
    (emit s e).market = s.market := by cases e <;> rfl

@[simp] theorem emit_capital (s : EngineState) (e : Event) :
    (emit s e).account_capital = s.account_capital := by cases e <;> rfl

@[simp] theorem emit_fills_net (s : EngineState) (e : Event) :
    (emit s e).fills_net = s.fills_net := by cases e <;> rfl

@[simp] theorem emit_rollovers (s : EngineState) (e : Event) :
    (emit s e).rollovers = s.rollovers := by cases e <;> rfl

@[simp] theorem emit_aborted (s : EngineState) (e : Event) :
    (emit s e).aborted = s.aborted := by cases e <;> rfl

@[simp] theorem emit_total_rollover (s : EngineState) (e : Event) :
    (emit s e).total_rollover = s.total_rollover := by cases e <;> rfl

@[simp] theorem emit_activity (s : EngineState) (e : Event) :
    (emit s e).account_cash_activity_day = s.account_cash_activity_day := by
  cases e <;> rfl

/-! ## Frame lemmas for the linkage helpers -/

theorem check_oco_order_of_none {s : EngineState} {i : Nat}
    (h : lookupA s.oco_orders i = none) : check_oco_order s i = s := by
  simp [check_oco_order, h]

theorem expire_oco_removal_of_none {s : EngineState} {i : Nat}
    (h1 : lookupA s.atomic_child_orders i = none)
    (h2 : lookupA s.oco_orders i = none) : expire_oco_removal s i = s := by
  unfold expire_oco_removal
  simp only [h1]
  exact check_oco_order_of_none h2

@[simp] theorem clean_up_events (s : EngineState) (i : Nat) :
    (clean_up_child_orders s i).events = s.events := rfl

@[simp] theorem clean_up_working (s : EngineState) (i : Nat) :
    (clean_up_child_orders s i).working_orders = s.working_orders := rfl

@[simp] theorem clean_up_oco (s : EngineState) (i : Nat) :
    (clean_up_child_orders s i).oco_orders = s.oco_orders := rfl

/-- `_reject_order` when the rejected id has no OCO entry: exactly one
rejection event is appended, the working set is untouched, and the id's
bracket (if any) is discarded. -/
theorem reject_order_of_no_oco {s : EngineState} {order : Order} {reason : String}
    (h : lookupA s.oco_orders order.id = none) :
    reject_order s order reason =
      { emit s (.OrderRejected order.id reason) with
          atomic_child_orders :=
            eraseA (emit s (.OrderRejected order.id reason)).atomic_child_orders order.id } := by
  unfold reject_order clean_up_child_orders
  rw [check_oco_order_of_none (show lookupA (emit s
    (Event.OrderRejected order.id reason)).oco_orders order.id = none by simpa using h)]

/-! ## Frame lemma for `adjust_account` -/

theorem adjust_account_frame (ctx : Ctx) (s : EngineState) (symbol : Nat)
    (order_side : OrderSide) (average_price : Int) (filled_quantity : Rat)
    (position : Position) :
    (adjust_account ctx s symbol order_side average_price filled_quantity
        position).oco_orders = s.oco_orders ∧
    (adjust_account ctx s symbol order_side average_price filled_quantity
        position).atomic_child_orders = s.atomic_child_orders ∧
    (adjust_account ctx s symbol order_side average_price filled_quantity
        position).working_orders = s.working_orders ∧
    (adjust_account ctx s symbol order_side average_price filled_quantity
        position).market = s.market ∧
    (adjust_account ctx s symbol order_side average_price filled_quantity
        position).order_states = s.order_states ∧
    ∃ E, (adjust_account ctx s symbol order_side average_price filled_quantity
        position).events = s.events ++ E ∧
      ∀ e ∈ E, ∃ a b c, e = Event.AccountState a b c := by
  rcases position with ⟨ps, pq, po, pmp, pe⟩
  cases pmp <;> by_cases hf : ctx.frozen_account = true <;>
    simp only [adjust_account, calculate_pnl, hf, if_true, if_false] <;>
    refine ⟨by trivial, by trivial, by trivial, by trivial, by trivial, ?_⟩
  · exact ⟨[], by simp, by simp⟩
  · refine ⟨_, rfl, ?_⟩
    intro e he
    simp at he
    exact ⟨_, _, _, he⟩
  · exact ⟨[], by simp, by simp⟩
  · refine ⟨_, rfl, ?_⟩
    intro e he
    simp at he
    exact ⟨_, _, _, he⟩
  · exact ⟨[], by simp, by simp⟩
  · exact ⟨[], by simp, by simp⟩

/-- Frame of the closing-adjustment step of `_fill_order`: only account
fields and (account-state) events can change. -/
theorem fill_adjust_frame (ctx : Ctx) (s : EngineState) (order : Order) (price : Int) :
    (fill_adjust ctx s order price).oco_orders = s.oco_orders ∧
    (fill_adjust ctx s order price).atomic_child_orders = s.atomic_child_orders ∧
    (fill_adjust ctx s order price).working_orders = s.working_orders ∧
    (fill_adjust ctx s order price).market = s.market ∧
    (fill_adjust ctx s order price).order_states = s.order_states ∧
    ∃ E, (fill_adjust ctx s order price).events = s.events ++ E ∧
      ∀ x ∈ E, ∃ a b c, x = Event.AccountState a b c := by
  unfold fill_adjust
  rcases hpos : ctx.get_position_for_order order.id with _ | position <;> simp only [hpos]
  · exact ⟨by trivial, by trivial, by trivial, by trivial, by trivial, [], by simp, by simp⟩
  · by_cases hd : position.entry_direction ≠ order.side
    · rw [if_pos hd]
      exact adjust_account_frame ctx s order.symbol order.side price order.quantity position
    · rw [if_neg hd]
      exact ⟨by trivial, by trivial, by trivial, by trivial, by trivial, [], by simp, by simp⟩

/-- Events appended by a `_fill_order` call when the filled id has no OCO
entry and no bracket: only account-state events and the fill itself. -/
theorem fill_run_events (fuel : Nat) (ctx : Ctx) (s : EngineState) (order : Order)
    (price : Int) (hoco : lookupA s.oco_orders order.id = none)
    (hbr : lookupA s.atomic_child_orders order.id = none) :
    ∀ e ∈ (run_order fuel ctx s (.fill order price)).events,
      e ∈ s.events ∨ (∃ a b c, e = Event.AccountState a b c) ∨
      e = Event.OrderFilled order.id order.symbol order.side order.quantity price := by
  cases fuel with
  | zero => intro e he; exact Or.inl he
  | succ fuel =>
      intro e he
      rw [show run_order (fuel + 1) ctx s (.fill order price) =
        fill_body (run_order fuel) ctx s order price from rfl] at he
      unfold fill_body at he
      obtain ⟨ho1, ha1, -, -, -, E, hE, hEa⟩ := fill_adjust_frame ctx s order price
      rw [check_oco_order_of_none (show lookupA (emit (fill_adjust ctx s order price)
        (Event.OrderFilled order.id order.symbol order.side order.quantity price)).oco_orders
          order.id = none by rw [emit_oco, ho1]; exact hoco)] at he
      unfold fill_children at he
      rw [show lookupA (emit (fill_adjust ctx s order price)
        (Event.OrderFilled order.id order.symbol order.side order.quantity
          price)).atomic_child_orders order.id = none by
        rw [emit_atomic, ha1]; exact hbr] at he
      simp only [emit_events, hE, List.mem_append, List.mem_singleton] at he
      rcases he with (h | h) | h
      · exact Or.inl h
      · exact Or.inr (Or.inl (hEa e h))
      · exact Or.inr (Or.inr h)

/-! ## C10 -/

/-- C10: `_check_valid_price` returns true for every order that is neither a
STOP kind nor LIMIT, so a MARKET order can be rejected only for a quantity
outside the instrument's size bounds or for a missing market. -/
theorem market_order_rejection_reasons (fuel : Nat) (ctx : Ctx) (s : EngineState)
    (order : Order) (htype : order.type = .MARKET)
    (hoco : lookupA s.oco_orders order.id = none)
    (hbr : lookupA s.atomic_child_orders order.id = none) :
    (∀ (o : Order) (market : Tick), stop_order_types o.type = false → o.type ≠ .LIMIT →
      check_valid_price ctx o market = true) ∧
    (∀ reason,
      Event.OrderRejected order.id reason ∈ (run_order fuel ctx s (.process order)).events →
      Event.OrderRejected order.id reason ∈ s.events ∨
      reason = "order quantity exceeds the maximum trade size" ∨
      reason = "order quantity is less than the minimum trade size" ∨
      reason = "no market") := by
  have hvalid : ∀ (o : Order) (market : Tick), stop_order_types o.type = false →
      o.type ≠ .LIMIT → check_valid_price ctx o market = true := by
    intro o market h1 h2
    cases ho : o.side <;> simp [check_valid_price, ho, h1, h2]
  refine ⟨hvalid, ?_⟩
  intro reason hmem
  cases fuel with
  | zero => exact Or.inl hmem
  | succ fuel =>
      rw [show run_order (fuel + 1) ctx s (.process order) =
        process_body (run_order fuel) ctx s order from rfl] at hmem
      unfold process_body at hmem
      have hrej : ∀ (R : String),
          Event.OrderRejected order.id reason ∈ (reject_order s order R).events →
          Event.OrderRejected order.id reason ∈ s.events ∨ reason = R := by
        intro R hR
        rw [reject_order_of_no_oco hoco] at hR
        simp only [emit_events] at hR
        rcases List.mem_append.1 hR with h | h
        · exact Or.inl h
        · simp at h
          exact Or.inr h
      by_cases hdup : (findW s.working_orders order.id).isSome
      · simp only [hdup, if_true] at hmem
        exact Or.inl hmem
      · simp only [hdup, Bool.false_eq_true, if_false] at hmem
        by_cases hmax : order.quantity > (ctx.instruments order.symbol).max_trade_size
        · simp only [hmax, if_true] at hmem
          rcases hrej _ hmem with h | h
          · exact Or.inl h
          · exact Or.inr (Or.inl h)
        · simp only [hmax, if_false] at hmem
          by_cases hmin : order.quantity < (ctx.instruments order.symbol).min_trade_size
          · simp only [hmin, if_true] at hmem
            rcases hrej _ hmem with h | h
            · exact Or.inl h
            · exact Or.inr (Or.inr (Or.inl h))
          · simp only [hmin, if_false] at hmem
            rcases hmkt : lookupA s.market order.symbol with _ | market
            · simp only [hmkt] at hmem
              rcases hrej _ hmem with h | h
              · exact Or.inl h
              · exact Or.inr (Or.inr (Or.inr h))
            · simp only [hmkt] at hmem
              have hcv : check_valid_price ctx order market = true :=
                hvalid order market (by rw [htype]; rfl) (by rw [htype]; intro h; cases h)
              simp only [hcv, Bool.true_eq_false, if_false, htype, if_true] at hmem
              have hfill : ∀ (p : Int),
                  Event.OrderRejected order.id reason ∈
                    (run_order fuel ctx (accept_order s order) (.fill order p)).events →
                  Event.OrderRejected order.id reason ∈ s.events := by
                intro p hp
                have := fill_run_events fuel ctx (accept_order s order) order p
                  (by simpa [accept_order] using hoco) (by simpa [accept_order] using hbr)
                  _ hp
                rcases this with h | h | h
                · simp only [accept_order, emit_events] at h
                  rcases List.mem_append.1 h with h2 | h2
                  · exact h2
                  · simp at h2
                · rcases h with ⟨a, b, c, h⟩; cases h
                · cases h
              unfold market_fill at hmem
              cases hside : order.side <;> simp only [hside] at hmem <;>
                exact Or.inl (hfill _ hmem)

def om : Order := ⟨2, 7, .BUY, .MARKET, 5, 0, none⟩

theorem market_order_rejection_reasons_witness :
    check_valid_price ctx0 om tick1 = true :=
  (market_order_rejection_reasons 10 ctx0 st1 om rfl (by decide) (by decide)).1
    om tick1 rfl (by decide)

/-! ## C8 -/

/-- C8: a valid `ModifyOrder` (order working, nonzero quantity, price passing
validation) emits exactly one `OrderModified` event carrying the new quantity
and price and changes nothing else: the stored order keeps its original price
and quantity, so any later fill in the matching loop is computed from the
original `order.price`. -/
theorem modify_order_frame (ctx : Ctx) (s : EngineState) (order_id : Nat)
    (modified_quantity : Rat) (modified_price : Int) (order : Order) (market : Tick)
    (hfind : findW s.working_orders order_id = some order)
    (hq : modified_quantity ≠ 0)
    (hm : lookupA s.market order.symbol = some market)
    (hcv : check_valid_price ctx order market = true) :
    modify_order ctx s order_id modified_quantity modified_price =
      { s with events := s.events ++ [.OrderModified order.id modified_quantity modified_price] } ∧
    findW (modify_order ctx s order_id modified_quantity modified_price).working_orders
      order_id = some order := by
  have h1 : modify_order ctx s order_id modified_quantity modified_price =
      emit s (.OrderModified order.id modified_quantity modified_price) := by
    unfold modify_order
    rw [hfind]
    simp only [hq, if_false, hm, hcv, Bool.true_eq_false]
  refine ⟨by rw [h1]; rfl, ?_⟩
  rw [h1]
  simpa using hfind

theorem modify_order_frame_witness :
    modify_order ctx0 st2 1 7 120 =
      { st2 with events := st2.events ++ [.OrderModified 1 7 120] } :=
  (modify_order_frame ctx0 st2 1 7 120 o1 tick1 (by decide) (by decide)
    (by decide) (by decide)).1

/-- Full-state characterization of a (sufficiently fuelled) `_fill_order`
call on an order with no OCO entry and no bracket: the events grow by some
account-state events followed by the fill, and the working set is
untouched. -/
theorem fill_run_state (fuel : Nat) (ctx : Ctx) (s : EngineState) (order : Order)
    (price : Int) (hoco : lookupA s.oco_orders order.id = none)
    (hbr : lookupA s.atomic_child_orders order.id = none) :
    ∃ E, (run_order (fuel + 1) ctx s (.fill order price)).events =
        s.events ++ E ++
          [Event.OrderFilled order.id order.symbol order.side order.quantity price] ∧
      (∀ x ∈ E, ∃ a b c, x = Event.AccountState a b c) ∧
      (run_order (fuel + 1) ctx s (.fill order price)).working_orders =
        s.working_orders := by
  rw [show run_order (fuel + 1) ctx s (.fill order price) =
    fill_body (run_order fuel) ctx s order price from rfl]
  unfold fill_body
  obtain ⟨ho1, ha1, hw1, -, -, E, hE, hEa⟩ := fill_adjust_frame ctx s order price
  rw [check_oco_order_of_none (show lookupA (emit (fill_adjust ctx s order price)
    (Event.OrderFilled order.id order.symbol order.side order.quantity price)).oco_orders
      order.id = none by rw [emit_oco, ho1]; exact hoco)]
  unfold fill_children
  rw [show lookupA (emit (fill_adjust ctx s order price)
    (Event.OrderFilled order.id order.symbol order.side order.quantity
      price)).atomic_child_orders order.id = none by
    rw [emit_atomic, ha1]; exact hbr]
  refine ⟨E, ?_, hEa, ?_⟩
  · rw [emit_events, hE]
  · rw [emit_working, hw1]

/-- Events appended by the expiry check of the matching loop, for an order
with no OCO entry and no bracket: at most one `OrderExpired`. -/
theorem tick_expiry_events (s : EngineState) (time_now : Int) (order : Order)
    (hoco : lookupA s.oco_orders order.id = none)
    (hbr : lookupA s.atomic_child_orders order.id = none) :
    ∃ E, (tick_expiry s time_now order).events = s.events ++ E ∧
      ∀ x ∈ E, x = Event.OrderExpired order.id := by
  unfold tick_expiry
  rcases hexp : order.expire_time with _ | expire_time <;> simp only [hexp]
  · exact ⟨[], by simp, by simp⟩
  · by_cases ht : time_now ≥ expire_time
    · rw [if_pos ht]
      by_cases hw : (findW s.working_orders order.id).isSome
      · rw [if_pos hw]
        unfold expire_order
        rw [expire_oco_removal_of_none (by rw [emit_atomic]; exact hbr)
          (by rw [emit_oco]; exact hoco)]
        exact ⟨[Event.OrderExpired order.id], by simp, by simp⟩
      · rw [if_neg hw]
        exact ⟨[], by simp, by simp⟩
    · rw [if_neg ht]
      exact ⟨[], by simp, by simp⟩

/-! ## C2 -/

/-- C2: for a working BUY order of a STOP kind on the processed tick's
symbol (with no OCO entry and no bracket under its id), the matching loop
fills the order exactly when `tick.ask ≥ order.price` or
(`tick.ask = order.price` and `fill_model.is_stop_filled()`); on a fill the
order is removed from `working_orders` and the fill price is
`order.price + slippage[symbol]` when `fill_model.is_slipped()` and
`order.price` otherwise.  (Since `≥` is non-strict, the marginal disjunct is
subsumed by the first; the biconditional holds as stated.) -/
theorem buy_stop_matching (fuel : Nat) (ctx : Ctx) (s : EngineState) (tick : Tick)
    (time_now : Int) (order : Order)
    (hside : order.side = .BUY) (htype : stop_order_types order.type = true)
    (hsym : order.symbol = tick.symbol)
    (hstate : getState s order.id = .WORKING)
    (hmem : (findW s.working_orders order.id).isSome = true)
    (hoco : lookupA s.oco_orders order.id = none)
    (hbr : lookupA s.atomic_child_orders order.id = none) :
    ∃ E, (tick_match_order (fuel + 1) ctx s tick time_now order).events =
        s.events ++ E ∧
      ((tick.ask ≥ order.price ∨
          (tick.ask = order.price ∧ ctx.fill_model.stop_filled = true)) ↔
        Event.OrderFilled order.id order.symbol order.side order.quantity
          (if ctx.fill_model.slipped then order.price + slippage ctx order.symbol
           else order.price) ∈ E) ∧
      (∀ q, Event.OrderFilled order.id order.symbol order.side order.quantity q ∈ E →
        (tick.ask ≥ order.price ∨
          (tick.ask = order.price ∧ ctx.fill_model.stop_filled = true)) ∧
        q = (if ctx.fill_model.slipped then order.price + slippage ctx order.symbol
             else order.price)) ∧
      ((tick.ask ≥ order.price ∨
          (tick.ask = order.price ∧ ctx.fill_model.stop_filled = true)) →
        findW (tick_match_order (fuel + 1) ctx s tick time_now order).working_orders
          order.id = none) := by
  have hcond : (tick.ask ≥ order.price ∨ is_marginal_buy_stop_fill ctx order.price tick) ↔
      (tick.ask ≥ order.price ∨
        (tick.ask = order.price ∧ ctx.fill_model.stop_filled = true)) := by
    simp only [is_marginal_buy_stop_fill, Bool.and_eq_true, decide_eq_true_eq]
  unfold tick_match_order
  rw [if_neg (by simpa using hsym), if_neg (by simpa using hstate)]
  by_cases hc : tick.ask ≥ order.price ∨ is_marginal_buy_stop_fill ctx order.price tick
  · have hfp : tick_fill_price ctx tick order =
        some (if ctx.fill_model.slipped then order.price + slippage ctx order.symbol
              else order.price) := by
      unfold tick_fill_price
      rw [hside]
      simp only [htype, if_true, if_pos hc]
    rw [hfp]
    have hdel : tick_del_working s order.id =
        { s with working_orders := eraseW s.working_orders order.id } := by
      unfold tick_del_working
      rw [if_pos hmem]
    rw [hdel]
    obtain ⟨E, hE, hEa, hw⟩ := fill_run_state fuel ctx
      { s with working_orders := eraseW s.working_orders order.id } order
      (if ctx.fill_model.slipped then order.price + slippage ctx order.symbol
       else order.price) hoco hbr
    refine ⟨E ++ [Event.OrderFilled order.id order.symbol order.side order.quantity
      (if ctx.fill_model.slipped then order.price + slippage ctx order.symbol
       else order.price)], ?_, ?_, ?_, ?_⟩
    · rw [hE]; simp
    · constructor
      · intro _; simp
      · intro _; exact hcond.1 hc
    · intro q hq
      simp only [List.mem_append, List.mem_singleton] at hq
      rcases hq with h | h
      · obtain ⟨a, b, c, hx⟩ := hEa _ h; cases hx
      · exact ⟨hcond.1 hc, by injection h⟩
    · intro _
      rw [hw]
      exact findW_eraseW_self s.working_orders order.id
  · have hfp : tick_fill_price ctx tick order = none := by
      unfold tick_fill_price
      rw [hside]
      simp only [htype, if_true, if_neg hc]
    rw [hfp]
    obtain ⟨E, hE, hEe⟩ := tick_expiry_events s time_now order hoco hbr
    refine ⟨E, hE, ?_, ?_, ?_⟩
    · constructor
      · intro h; exact absurd (hcond.2 h) hc
      · intro h
        have := hEe _ h
        cases this
    · intro q hq
      have := hEe _ hq
      cases this
    · intro h; exact absurd (hcond.2 h) hc

theorem buy_stop_matching_witness :
    findW (tick_match_order 10 ctx0 st2 tick2 20 o1).working_orders o1.id = none := by
  obtain ⟨E, hE, hiff, hq, hrem⟩ := buy_stop_matching 9 ctx0 st2 tick2 20 o1 rfl rfl rfl
    (by decide) (by decide) (by decide) (by decide)
  exact hrem (Or.inl (by decide))

/-! ## C7 -/

/-- The mid price of a symbol's current market (`(ask + bid) / 2`; 0 when no
tick has been seen). -/
def midOf (s : EngineState) (symbol : Nat) : Rat :=
  match lookupA s.market symbol with
  | some market => ((market.ask : Rat) + (market.bid : Rat)) / 2
  | none => 0

/-- Spec-side per-position rollover amount: mid price × quantity × overnight
rate × exchange rate, less the spread markup. -/
def rollover_amount (ctx : Ctx) (s : EngineState) (timestamp : Int) (p : Position) : Rat :=
  spread_markup ctx
    (midOf s p.symbol * p.quantity * ctx.overnight_rate p.symbol timestamp *
      ctx.get_rate (ctx.instruments p.symbol).quote_currency ctx.account_currency .MID
        (build_bid_rates s.market) (build_ask_rates s.market))

/-- Spec-side cumulative rollover: the sum of `rollover_amount` over the FX
positions. -/
def rollover_total (ctx : Ctx) (s : EngineState) (timestamp : Int)
    (ps : List Position) : Rat :=
  ((ps.filter (fun p => decide ((ctx.instruments p.symbol).security_type = .FOREX))).map
    (rollover_amount ctx s timestamp)).sum

/-- The cached mid-price lookup returns the market mid and keeps the cache
sound. -/
theorem rollover_mid_eq (s : EngineState) (cache : List (Nat × Rat)) (symbol : Nat)
    (hc : ∀ k v, lookupA cache k = some v → v = midOf s k)
    (hm : (lookupA s.market symbol).isSome = true) :
    ∃ cache', rollover_mid s cache symbol = some (midOf s symbol, cache') ∧
      ∀ k v, lookupA cache' k = some v → v = midOf s k := by
  unfold rollover_mid
  by_cases hz : (lookupA cache symbol).getD 0 = 0
  · rw [if_pos hz]
    rcases hmk : lookupA s.market symbol with _ | market
    · rw [hmk] at hm; cases hm
    · simp only [hmk]
      have hmid : midOf s symbol = ((market.ask : Rat) + (market.bid : Rat)) / 2 := by
        simp [midOf, hmk]
      refine ⟨setA cache symbol (((market.ask : Rat) + (market.bid : Rat)) / 2),
        by rw [hmid], ?_⟩
      intro k v hkv
      by_cases hk : k = symbol
      · subst hk
        rw [lookupA_setA_self] at hkv
        injection hkv with h
        rw [← h, hmid]
      · rw [lookupA_setA_of_ne _ _ _ _ hk] at hkv
        exact hc k v hkv
  · rw [if_neg hz]
    rcases hl : lookupA cache symbol with _ | c
    · rw [hl] at hz; simp at hz
    · have hcm := hc symbol c hl
      refine ⟨cache, ?_, hc⟩
      simp [hcm]

/-- The imperative rollover loop (with its mid-price cache) computes the
spec-side sum over FX positions. -/
theorem rollover_loop_eq (ctx : Ctx) (s : EngineState) (timestamp : Int) :
    ∀ (ps : List Position) (acc : Rat) (cache : List (Nat × Rat)),
      (∀ k v, lookupA cache k = some v → v = midOf s k) →
      (∀ p ∈ ps, (ctx.instruments p.symbol).security_type = .FOREX →
        (lookupA s.market p.symbol).isSome = true) →
      rollover_loop ctx s timestamp ps acc cache =
        some (acc + rollover_total ctx s timestamp ps) := by
  intro ps
  induction ps with
  | nil =>
      intro acc cache hc hm
      simp [rollover_loop, rollover_total]
  | cons p rest ih =>
      intro acc cache hc hm
      by_cases hfx : (ctx.instruments p.symbol).security_type = .FOREX
      · obtain ⟨cache', hmid, hc'⟩ := rollover_mid_eq s cache p.symbol hc
          (hm p (List.mem_cons_self p rest) hfx)
        rw [show rollover_loop ctx s timestamp (p :: rest) acc cache =
          rollover_loop ctx s timestamp rest
            (acc + spread_markup ctx
              (midOf s p.symbol * p.quantity * ctx.overnight_rate p.symbol timestamp *
                ctx.get_rate (ctx.instruments p.symbol).quote_currency
                  ctx.account_currency .MID (build_bid_rates s.market)
                  (build_ask_rates s.market))) cache' by
          simp only [rollover_loop, if_pos hfx, hmid]]
        rw [ih _ cache' hc' (fun q hq => hm q (List.mem_cons_of_mem p hq))]
        have hsum : rollover_total ctx s timestamp (p :: rest) =
            rollover_amount ctx s timestamp p + rollover_total ctx s timestamp rest := by
          simp [rollover_total, List.filter_cons, hfx]
        rw [hsum, rollover_amount, add_assoc]
      · rw [show rollover_loop ctx s timestamp (p :: rest) acc cache =
          rollover_loop ctx s timestamp rest acc cache by
          simp only [rollover_loop, if_neg hfx]]
        rw [ih _ cache hc (fun q hq => hm q (List.mem_cons_of_mem p hq))]
        have hsum : rollover_total ctx s timestamp (p :: rest) =
            rollover_total ctx s timestamp rest := by
          simp [rollover_total, List.filter_cons, hfx]
        rw [hsum]

/-- C7: `apply_rollover_interest` accumulates, over every open FX position,
`mid × quantity × overnight rate × exchange rate` less the spread markup;
the cumulative total is tripled when the ISO weekday is 3 or 5; the result
is always added to `total_rollover` (and recorded in the history), while
`account_capital` and `account_cash_activity_day` change — and an
`AccountStateEvent` is emitted — only when the account is not frozen. -/
theorem apply_rollover_spec (ctx : Ctx) (s : EngineState) (timestamp iso_week_day : Int)
    (hdb : ctx.has_exec_db = true)
    (hmkts : ∀ p ∈ ctx.get_positions_open timestamp,
      (ctx.instruments p.symbol).security_type = .FOREX →
      (lookupA s.market p.symbol).isSome = true) :
    (apply_rollover_interest ctx s timestamp iso_week_day).total_rollover =
      s.total_rollover +
        (if iso_week_day = 3 ∨ iso_week_day = 5 then
          rollover_total ctx s timestamp (ctx.get_positions_open timestamp) * 3
         else rollover_total ctx s timestamp (ctx.get_positions_open timestamp)) ∧
    (apply_rollover_interest ctx s timestamp iso_week_day).rollovers =
      s.rollovers ++
        [if iso_week_day = 3 ∨ iso_week_day = 5 then
          rollover_total ctx s timestamp (ctx.get_positions_open timestamp) * 3
         else rollover_total ctx s timestamp (ctx.get_positions_open timestamp)] ∧
    (ctx.frozen_account = true →
      (apply_rollover_interest ctx s timestamp iso_week_day).account_capital =
        s.account_capital ∧
      (apply_rollover_interest ctx s timestamp iso_week_day).account_cash_activity_day =
        s.account_cash_activity_day ∧
      (apply_rollover_interest ctx s timestamp iso_week_day).events = s.events) ∧
    (ctx.frozen_account = false →
      (apply_rollover_interest ctx s timestamp iso_week_day).account_capital =
        s.account_capital +
          (if iso_week_day = 3 ∨ iso_week_day = 5 then
            rollover_total ctx s timestamp (ctx.get_positions_open timestamp) * 3
           else rollover_total ctx s timestamp (ctx.get_positions_open timestamp)) ∧
      (apply_rollover_interest ctx s timestamp iso_week_day).account_cash_activity_day =
        s.account_cash_activity_day +
          (if iso_week_day = 3 ∨ iso_week_day = 5 then
            rollover_total ctx s timestamp (ctx.get_positions_open timestamp) * 3
           else rollover_total ctx s timestamp (ctx.get_positions_open timestamp)) ∧
      (apply_rollover_interest ctx s timestamp iso_week_day).events =
        s.events ++
          [Event.AccountState
            (s.account_capital +
              (if iso_week_day = 3 ∨ iso_week_day = 5 then
                rollover_total ctx s timestamp (ctx.get_positions_open timestamp) * 3
               else rollover_total ctx s timestamp (ctx.get_positions_open timestamp)))
            s.account_cash_start_day
            (s.account_cash_activity_day +
              (if iso_week_day = 3 ∨ iso_week_day = 5 then
                rollover_total ctx s timestamp (ctx.get_positions_open timestamp) * 3
               else rollover_total ctx s timestamp (ctx.get_positions_open timestamp)))]) := by
  have hloop := rollover_loop_eq ctx s timestamp (ctx.get_positions_open timestamp) 0 []
    (by intro k v h; simp [lookupA] at h) hmkts
  have htw : triple_weekday iso_week_day
      (rollover_total ctx s timestamp (ctx.get_positions_open timestamp)) =
      (if iso_week_day = 3 ∨ iso_week_day = 5 then
        rollover_total ctx s timestamp (ctx.get_positions_open timestamp) * 3
       else rollover_total ctx s timestamp (ctx.get_positions_open timestamp)) := by
    by_cases h3 : iso_week_day = 3
    · simp [triple_weekday, h3]
    · by_cases h5 : iso_week_day = 5
      · simp [triple_weekday, h3, h5]
      · simp [triple_weekday, h3, h5]
  have hres : apply_rollover_interest ctx s timestamp iso_week_day =
      book_rollover ctx s (triple_weekday iso_week_day
        (rollover_total ctx s timestamp (ctx.get_positions_open timestamp))) := by
    unfold apply_rollover_interest
    rw [hdb]
    simp only [Bool.true_eq_false, if_false, hloop, zero_add]
  rw [hres, htw]
  unfold book_rollover
  by_cases hf : ctx.frozen_account = true
  · rw [if_pos hf]
    refine ⟨rfl, rfl, fun _ => ⟨rfl, rfl, rfl⟩, fun h => ?_⟩
    rw [h] at hf
    exact Bool.noConfusion hf
  · rw [if_neg hf]
    exact ⟨by simp, by simp, fun h => absurd h hf, fun _ => ⟨by simp, by simp, by simp⟩⟩

def pos7 : Position := ⟨7, 10, 1, .LONG, .BUY⟩

def ctx7 : Ctx :=
  { ctx0 with
    get_positions_open := fun _ => [pos7]
    overnight_rate := fun _ _ => 1 / 100 }

theorem apply_rollover_spec_witness :
    (apply_rollover_interest ctx7 st1 50 3).total_rollover =
      st1.total_rollover +
        (if (3 : Int) = 3 ∨ (3 : Int) = 5 then
          rollover_total ctx7 st1 50 (ctx7.get_positions_open 50) * 3
         else rollover_total ctx7 st1 50 (ctx7.get_positions_open 50)) :=
  (apply_rollover_spec ctx7 st1 50 3 rfl (by decide)).1

/-! ## C1: the capital identity -/

/-- The account projection relevant to the capital identity: capital and the
two histories. -/
def acct3 (s : EngineState) : Rat × List Rat × List Rat :=
  (s.account_capital, s.fills_net, s.rollovers)

/-- The capital identity itself. -/
def CapInv (ctx : Ctx) (s : EngineState) : Prop :=
  (ctx.frozen_account = false →
    s.account_capital = ctx.starting_capital + s.fills_net.sum + s.rollovers.sum) ∧
  (ctx.frozen_account = true → s.account_capital = ctx.starting_capital)

theorem capInv_of_acct3 {ctx : Ctx} {s s' : EngineState}
    (he : acct3 s' = acct3 s) (h : CapInv ctx s) : CapInv ctx s' := by
  have hcap : s'.account_capital = s.account_capital := by
    have := congrArg Prod.fst he
    simpa [acct3] using this
  have hfn : s'.fills_net = s.fills_net := by
    have := congrArg (fun p => p.2.1) he
    simpa [acct3] using this
  have hro : s'.rollovers = s.rollovers := by
    have := congrArg (fun p => p.2.2) he
    simpa [acct3] using this
  exact ⟨fun hf => by rw [hcap, hfn, hro]; exact h.1 hf,
    fun hf => by rw [hcap]; exact h.2 hf⟩

theorem acct3_emit (s : EngineState) (e : Event) : acct3 (emit s e) = acct3 s := by
  simp [acct3]

theorem acct3_reject_oco (s : EngineState) (child : Order) (i : Nat) :
    acct3 (reject_oco_order s child i) = acct3 s := by
  simp [reject_oco_order, acct3]

theorem acct3_oco_pair_remove (s : EngineState) (a b : Nat) :
    acct3 (oco_pair_remove s a b) = acct3 s := by
  unfold oco_pair_remove
  split <;> rfl

theorem acct3_oco_reject_latent (s : EngineState) (a b : Nat) :
    acct3 (oco_reject_latent s a b) = acct3 s := by
  unfold oco_reject_latent
  refine foldl_preserve (P := fun t => acct3 t = acct3 s) ?_ _ s rfl
  intro t pr ht
  refine foldl_preserve (P := fun t' => acct3 t' = acct3 s) ?_ _ t ht
  intro t' child ht'
  by_cases h : child.id = b
  · rw [if_pos h, acct3_reject_oco]
    exact ht'
  · rw [if_neg h]
    exact ht'

theorem acct3_oco_cancel_working (s : EngineState) (i : Nat) :
    acct3 (oco_cancel_working s i) = acct3 s := by
  unfold oco_cancel_working
  rcases h : findW s.working_orders i with _ | w
  · simp only [h]
  · simp only [h]
    simp [acct3]

theorem acct3_check_oco (s : EngineState) (i : Nat) :
    acct3 (check_oco_order s i) = acct3 s := by
  unfold check_oco_order
  rcases h : lookupA s.oco_orders i with _ | j
  · simp only [h]
  · simp only [h]
    rw [acct3_oco_cancel_working, acct3_oco_reject_latent, acct3_oco_pair_remove]

theorem acct3_clean_up (s : EngineState) (i : Nat) :
    acct3 (clean_up_child_orders s i) = acct3 s := rfl

theorem acct3_reject_order (s : EngineState) (order : Order) (reason : String) :
    acct3 (reject_order s order reason) = acct3 s := by
  unfold reject_order
  rw [acct3_clean_up, acct3_check_oco, acct3_emit]

theorem acct3_expire_oco_removal (s : EngineState) (i : Nat) :
    acct3 (expire_oco_removal s i) = acct3 s := by
  unfold expire_oco_removal
  rcases h : lookupA s.atomic_child_orders i with _ | children
  · simp only [h]
    exact acct3_check_oco s i
  · simp only [h]
    rcases children with _ | ⟨c, rest⟩
    · rfl
    · rcases h2 : lookupA s.oco_orders c.id with _ | other
      · simp only [h2]
      · simp only [h2]
        split <;> rfl

theorem acct3_expire_order (s : EngineState) (order : Order) :
    acct3 (expire_order s order) = acct3 s := by
  unfold expire_order
  rw [acct3_clean_up, acct3_expire_oco_removal, acct3_emit]

theorem acct3_tick_del_working (s : EngineState) (i : Nat) :
    acct3 (tick_del_working s i) = acct3 s := by
  unfold tick_del_working
  split <;> rfl

theorem acct3_tick_expiry (s : EngineState) (time_now : Int) (order : Order) :
    acct3 (tick_expiry s time_now order) = acct3 s := by
  unfold tick_expiry
  rcases h : order.expire_time with _ | t
  · simp only [h]
  · simp only [h]
    split
    · split
      · rw [acct3_expire_order]
        rfl
      · rfl
    · rfl

theorem acct3_place_working (s : EngineState) (order : Order) :
    acct3 (place_working s order) = acct3 s := by
  unfold place_working
  rw [acct3_emit]
  rfl

theorem acct3_fill_discard (s : EngineState) (i : Nat) :
    acct3 (fill_discard s i) = acct3 s := by
  unfold fill_discard
  split <;> rfl

/-- `adjust_account` preserves the capital identity: the net pnl is both
added to capital (when not frozen) and appended to the `fills_net`
history. -/
theorem capInv_adjust (ctx : Ctx) (s : EngineState) (symbol : Nat)
    (order_side : OrderSide) (average_price : Int) (filled_quantity : Rat)
    (position : Position) (h : CapInv ctx s) :
    CapInv ctx (adjust_account ctx s symbol order_side average_price
      filled_quantity position) := by
  rcases position with ⟨ps, pq, po, pmp, pe⟩
  cases pmp <;> by_cases hf : ctx.frozen_account = true <;>
    simp only [adjust_account, calculate_pnl, hf, if_true, if_false]
  · exact ⟨fun hfalse => by rw [hfalse] at hf; exact Bool.noConfusion hf, fun _ => h.2 hf⟩
  · simp only [Bool.false_eq_true, if_false]
    refine ⟨fun hfalse => ?_, fun htrue => absurd htrue hf⟩
    have h1 := h.1 hfalse
    simp only [emit_capital, emit_fills_net, emit_rollovers]
    rw [h1]
    simp [List.sum_append]
    ring
  · exact ⟨fun hfalse => by rw [hfalse] at hf; exact Bool.noConfusion hf, fun _ => h.2 hf⟩
  · simp only [Bool.false_eq_true, if_false]
    refine ⟨fun hfalse => ?_, fun htrue => absurd htrue hf⟩
    have h1 := h.1 hfalse
    simp only [emit_capital, emit_fills_net, emit_rollovers]
    rw [h1]
    simp [List.sum_append]
    ring
  · exact capInv_of_acct3 (by simp [acct3]) h
  · exact capInv_of_acct3 (by simp [acct3]) h

/-- `book_rollover` preserves the capital identity. -/
theorem capInv_book (ctx : Ctx) (s : EngineState) (r : Rat) (h : CapInv ctx s) :
    CapInv ctx (book_rollover ctx s r) := by
  unfold book_rollover
  by_cases hf : ctx.frozen_account = true
  · rw [if_pos hf]
    exact ⟨fun hfalse => by rw [hfalse] at hf; exact Bool.noConfusion hf, fun _ => h.2 hf⟩
  · rw [if_neg hf]
    refine ⟨fun hfalse => ?_, fun htrue => absurd htrue hf⟩
    have h1 := h.1 hfalse
    simp only [emit_capital, emit_fills_net, emit_rollovers]
    rw [h1]
    simp [List.sum_append]
    ring

theorem capInv_rollover (ctx : Ctx) (s : EngineState) (timestamp iso_week_day : Int)
    (h : CapInv ctx s) :
    CapInv ctx (apply_rollover_interest ctx s timestamp iso_week_day) := by
  unfold apply_rollover_interest
  split
  · exact h
  · split
    · exact capInv_of_acct3 (by simp [acct3]) h
    · exact capInv_book ctx s _ h

/-- `_process_order`/`_fill_order` preserve the capital identity for every
fuel. -/
theorem capInv_run (ctx : Ctx) :
    ∀ (fuel : Nat) (s : EngineState) (c : OrderCall),
      CapInv ctx s → CapInv ctx (run_order fuel ctx s c) := by
  intro fuel
  induction fuel with
  | zero =>
      intro s c h
      exact capInv_of_acct3 (by simp [run_order, acct3]) h
  | succ fuel ih =>
      intro s c h
      cases c with
      | process order =>
          rw [show run_order (fuel + 1) ctx s (.process order) =
            process_body (run_order fuel) ctx s order from rfl]
          unfold process_body
          split
          · exact capInv_of_acct3 (by simp [acct3]) h
          · split
            · exact capInv_of_acct3 (acct3_reject_order s order _) h
            · split
              · exact capInv_of_acct3 (acct3_reject_order s order _) h
              · split
                · exact capInv_of_acct3 (acct3_reject_order s order _) h
                · split
                  · exact capInv_of_acct3 (acct3_reject_order s order _) h
                  · split
                    · unfold market_fill
                      split <;>
                        exact ih _ _ (capInv_of_acct3 (acct3_emit s _) h)
                    · exact capInv_of_acct3 (acct3_place_working _ order) h
      | fill order price =>
          rw [show run_order (fuel + 1) ctx s (.fill order price) =
            fill_body (run_order fuel) ctx s order price from rfl]
          unfold fill_body
          have h1 : CapInv ctx (fill_adjust ctx s order price) := by
            unfold fill_adjust
            split
            · split
              · exact capInv_adjust ctx s order.symbol order.side price order.quantity _ h
              · exact h
            · exact h
          have h3 : CapInv ctx (check_oco_order
              (emit (fill_adjust ctx s order price)
                (.OrderFilled order.id order.symbol order.side order.quantity price))
              order.id) :=
            capInv_of_acct3 (by rw [acct3_check_oco, acct3_emit]) h1
          unfold fill_children
          rcases hbrk : lookupA (check_oco_order
              (emit (fill_adjust ctx s order price)
                (Event.OrderFilled order.id order.symbol order.side order.quantity price))
              order.id).atomic_child_orders order.id with _ | children
          · simp only [hbrk]
            exact h3
          · simp only [hbrk]
            refine capInv_of_acct3 (acct3_fill_discard _ _)
              (foldl_preserve ?_ children _ h3)
            intro t child ht
            by_cases hc : completed (getState t child.id) = true
            · rw [if_pos hc]
              exact ht
            · rw [if_neg hc]
              exact ih _ _ ht

theorem capInv_tick_match (ctx : Ctx) (fuel : Nat) (s : EngineState) (tick : Tick)
    (time_now : Int) (order : Order) (h : CapInv ctx s) :
    CapInv ctx (tick_match_order fuel ctx s tick time_now order) := by
  unfold tick_match_order
  split
  · exact h
  · split
    · exact h
    · split
      · exact capInv_run ctx fuel _ _ (capInv_of_acct3 (acct3_tick_del_working s order.id) h)
      · exact capInv_of_acct3 (acct3_tick_expiry s time_now order) h

theorem capInv_process_tick (ctx : Ctx) (fuel : Nat) (s : EngineState) (tick : Tick)
    (h : CapInv ctx s) : CapInv ctx (process_tick fuel ctx s tick) := by
  unfold process_tick tick_scan
  have h1 : CapInv ctx (tick_day ctx { s with market := setA s.market tick.symbol tick }
      tick.timestamp) := by
    refine capInv_of_acct3 ?_ h
    unfold tick_day
    split <;> rfl
  have h2 : CapInv ctx (tick_rollover ctx
      (tick_day ctx { s with market := setA s.market tick.symbol tick } tick.timestamp)
      tick.timestamp) := by
    unfold tick_rollover
    rcases hrt : (tick_day ctx { s with market := setA s.market tick.symbol tick }
        tick.timestamp).rollover_time with _ | rt
    · simp only [hrt]
      exact h1
    · simp only [hrt]
      split
      · exact capInv_of_acct3 (by simp [acct3])
          (capInv_rollover ctx _ tick.timestamp (ctx.isoweekday_of rt) h1)
      · exact h1
  split
  · exact h2
  · exact foldl_preserve (P := CapInv ctx)
      (fun t order ht => capInv_tick_match ctx fuel t tick tick.timestamp order ht) _ _ h2

theorem capInv_submit (ctx : Ctx) (fuel : Nat) (s : EngineState) (order : Order)
    (h : CapInv ctx s) : CapInv ctx (submit_order fuel ctx s order) := by
  unfold submit_order
  exact capInv_run ctx fuel _ _ (capInv_of_acct3 (acct3_emit s _) h)

theorem capInv_submit_atomic (ctx : Ctx) (fuel : Nat) (s : EngineState)
    (entry stop_loss : Order) (take_profit : Option Order) (h : CapInv ctx s) :
    CapInv ctx (submit_atomic_order fuel ctx s entry stop_loss take_profit) := by
  unfold submit_atomic_order
  apply capInv_submit
  rcases take_profit with _ | tp <;> exact capInv_of_acct3 (by simp [acct3]) h

theorem capInv_cancel (ctx : Ctx) (s : EngineState) (order_id : Nat)
    (h : CapInv ctx s) : CapInv ctx (cancel_order s order_id) := by
  unfold cancel_order
  split
  · exact capInv_of_acct3 (acct3_emit s _) h
  · exact capInv_of_acct3 (by rw [acct3_check_oco]; simp [acct3]) h

theorem capInv_modify (ctx : Ctx) (s : EngineState) (order_id : Nat)
    (modified_quantity : Rat) (modified_price : Int) (h : CapInv ctx s) :
    CapInv ctx (modify_order ctx s order_id modified_quantity modified_price) := by
  unfold modify_order
  split
  · exact capInv_of_acct3 (acct3_emit s _) h
  · split
    · exact capInv_of_acct3 (by simp [acct3]) h
    · split
      · exact capInv_of_acct3 (by simp [acct3]) h
      · split
        · exact capInv_of_acct3 (acct3_reject_order s _ _) h
        · exact capInv_of_acct3 (acct3_emit s _) h

/-- C1: in every state reachable through the public interface (including
direct `adjust_account` and `apply_rollover_interest` invocations), when
`frozen_account` is false the capital equals the starting capital plus the
sum of the recorded closing-fill net amounts (pnl − commission) plus the sum
of the recorded rollover amounts; when `frozen_account` is true the capital
stays equal to the starting capital. -/
theorem capital_identity (ctx : Ctx) (s : EngineState)
    (h : ReachableG ctx Wtrue Vtrue s) :
    (ctx.frozen_account = false →
      s.account_capital = ctx.starting_capital + s.fills_net.sum + s.rollovers.sum) ∧
    (ctx.frozen_account = true → s.account_capital = ctx.starting_capital) := by
  induction h with
  | init => exact ⟨fun _ => by simp [initState], fun _ => rfl⟩
  | tick fuel t _ ih => exact capInv_process_tick _ fuel _ t ih
  | submit fuel order _ _ ih => exact capInv_submit _ fuel _ order ih
  | submit_atomic fuel entry stop_loss take_profit _ _ ih =>
      exact capInv_submit_atomic _ fuel _ entry stop_loss take_profit ih
  | cancel order_id _ ih => exact capInv_cancel _ _ order_id ih
  | modify order_id q p _ ih => exact capInv_modify _ _ order_id q p ih
  | inquiry _ ih => exact capInv_of_acct3 (acct3_emit _ _) ih
  | adjust symbol order_side average_price filled_quantity position _ ih =>
      exact capInv_adjust _ _ symbol order_side average_price filled_quantity position ih
  | rollover timestamp iso_week_day _ ih =>
      exact capInv_rollover _ _ timestamp iso_week_day ih

theorem capital_identity_witness :
    (initState ctx0).account_capital =
      ctx0.starting_capital + (initState ctx0).fills_net.sum +
        (initState ctx0).rollovers.sum :=
  (capital_identity ctx0 (initState ctx0) ReachableG.init).1 rfl

/-! ## C5: OCO map symmetry -/

/-- Symmetry and self-pair-freeness of an OCO association list. -/
def SymL (l : List (Nat × Nat)) : Prop :=
  (∀ a b, lookupA l a = some b → lookupA l b = some a) ∧
  (∀ a, lookupA l a ≠ some a)

/-- The invariant on the engine state. -/
def OcoInv (s : EngineState) : Prop := SymL s.oco_orders

theorem ocoInv_of_eq {s s' : EngineState} (he : s'.oco_orders = s.oco_orders)
    (h : OcoInv s) : OcoInv s' := by
  unfold OcoInv at *
  rw [he]
  exact h

/-- Inserting a fresh symmetric pair preserves symmetry. -/
theorem symL_insert (l : List (Nat × Nat)) (a b : Nat) (h : SymL l)
    (ha : lookupA l a = none) (hb : lookupA l b = none) (hab : a ≠ b) :
    SymL (setA (setA l a b) b a) := by
  constructor
  · intro x y hxy
    by_cases hxb : x = b
    · rw [hxb, lookupA_setA_self] at hxy
      injection hxy with h1
      rw [hxb, ← h1, lookupA_setA_of_ne _ _ _ _ hab]
      exact lookupA_setA_self l a b
    · rw [lookupA_setA_of_ne _ _ _ _ hxb] at hxy
      by_cases hxa : x = a
      · rw [hxa, lookupA_setA_self] at hxy
        injection hxy with h1
        rw [hxa, ← h1]
        exact lookupA_setA_self _ b a
      · rw [lookupA_setA_of_ne _ _ _ _ hxa] at hxy
        have hyx := h.1 x y hxy
        have hya : y ≠ a := by
          intro he
          rw [he, ha] at hyx
          cases hyx
        have hyb : y ≠ b := by
          intro he
          rw [he, hb] at hyx
          cases hyx
        rw [lookupA_setA_of_ne _ _ _ _ hyb, lookupA_setA_of_ne _ _ _ _ hya]
        exact hyx
  · intro x hx
    by_cases hxb : x = b
    · rw [hxb, lookupA_setA_self] at hx
      injection hx with h1
      exact hab h1
    · rw [lookupA_setA_of_ne _ _ _ _ hxb] at hx
      by_cases hxa : x = a
      · rw [hxa, lookupA_setA_self] at hx
        injection hx with h1
        exact hab h1.symm
      · rw [lookupA_setA_of_ne _ _ _ _ hxa] at hx
        exact h.2 x hx

/-- Removing both endpoints of a pair preserves symmetry. -/
theorem symL_remove (l : List (Nat × Nat)) (a b : Nat) (h : SymL l)
    (hab : lookupA l a = some b) : SymL (eraseA (eraseA l a) b) := by
  have hba : lookupA l b = some a := h.1 a b hab
  constructor
  · intro x y hxy
    have hxb : x ≠ b := by
      intro he
      subst he
      rw [lookupA_eraseA_self] at hxy
      cases hxy
    rw [lookupA_eraseA_of_ne _ _ _ hxb] at hxy
    have hxa : x ≠ a := by
      intro he
      subst he
      rw [lookupA_eraseA_self] at hxy
      cases hxy
    rw [lookupA_eraseA_of_ne _ _ _ hxa] at hxy
    have hyx := h.1 x y hxy
    have hya : y ≠ a := by
      intro he
      subst he
      rw [hab] at hyx
      injection hyx with h1
      exact hxb h1.symm
    have hyb : y ≠ b := by
      intro he
      subst he
      rw [hba] at hyx
      injection hyx with h1
      exact hxa h1.symm
    rw [lookupA_eraseA_of_ne _ _ _ hyb, lookupA_eraseA_of_ne _ _ _ hya]
    exact hyx
  · intro x hx
    by_cases hxb : x = b
    · subst hxb
      rw [lookupA_eraseA_self] at hx
      cases hx
    · rw [lookupA_eraseA_of_ne _ _ _ hxb] at hx
      by_cases hxa : x = a
      · subst hxa
        rw [lookupA_eraseA_self] at hx
        cases hx
      · rw [lookupA_eraseA_of_ne _ _ _ hxa] at hx
        exact h.2 x hx

/-! OCO-field frame lemmas for the helpers that never touch the map. -/

theorem oco_oco_reject_latent (s : EngineState) (a b : Nat) :
    (oco_reject_latent s a b).oco_orders = s.oco_orders := by
  unfold oco_reject_latent
  refine foldl_preserve (P := fun t => t.oco_orders = s.oco_orders) ?_ _ s rfl
  intro t pr ht
  refine foldl_preserve (P := fun t' => t'.oco_orders = s.oco_orders) ?_ _ t ht
  intro t' child ht'
  by_cases hc : child.id = b
  · rw [if_pos hc]
    unfold reject_oco_order
    rw [emit_oco]
    exact ht'
  · rw [if_neg hc]
    exact ht'

theorem oco_oco_cancel_working (s : EngineState) (i : Nat) :
    (oco_cancel_working s i).oco_orders = s.oco_orders := by
  unfold oco_cancel_working
  rcases h : findW s.working_orders i with _ | w
  · simp only [h]
  · simp only [h, emit_oco]

theorem oco_fill_discard (s : EngineState) (i : Nat) :
    (fill_discard s i).oco_orders = s.oco_orders := by
  unfold fill_discard
  split <;> rfl

theorem oco_tick_del_working (s : EngineState) (i : Nat) :
    (tick_del_working s i).oco_orders = s.oco_orders := by
  unfold tick_del_working
  split <;> rfl

theorem oco_place_working (s : EngineState) (order : Order) :
    (place_working s order).oco_orders = s.oco_orders := by
  unfold place_working
  rw [emit_oco]

theorem oco_book_rollover (ctx : Ctx) (s : EngineState) (r : Rat) :
    (book_rollover ctx s r).oco_orders = s.oco_orders := by
  unfold book_rollover
  split
  · rfl
  · rw [emit_oco]

theorem oco_apply_rollover (ctx : Ctx) (s : EngineState) (timestamp iso_week_day : Int) :
    (apply_rollover_interest ctx s timestamp iso_week_day).oco_orders = s.oco_orders := by
  unfold apply_rollover_interest
  split
  · rfl
  · split
    · rfl
    · rw [oco_book_rollover]

/-- `_check_oco_order` preserves the OCO invariant: it removes exactly one
symmetric pair. -/
theorem ocoInv_check_oco (s : EngineState) (i : Nat) (h : OcoInv s) :
    OcoInv (check_oco_order s i) := by
  unfold check_oco_order
  rcases hl : lookupA s.oco_orders i with _ | j
  · simp only [hl]
    exact h
  · simp only [hl]
    have hji : j ≠ i := by
      intro he
      rw [he] at hl
      exact h.2 i hl
    have hcond : (lookupA (eraseA s.oco_orders i) j).isSome = true := by
      rw [lookupA_eraseA_of_ne _ _ _ hji, h.1 i j hl]
      rfl
    have hpr : oco_pair_remove s i j =
        { s with oco_orders := eraseA (eraseA s.oco_orders i) j } := by
      unfold oco_pair_remove
      rw [if_pos hcond]
    refine ocoInv_of_eq ?_ (show OcoInv { s with
      oco_orders := eraseA (eraseA s.oco_orders i) j } from symL_remove _ i j h hl)
    rw [oco_oco_cancel_working, oco_oco_reject_latent, hpr]

theorem ocoInv_reject_order (s : EngineState) (order : Order) (reason : String)
    (h : OcoInv s) : OcoInv (reject_order s order reason) := by
  unfold reject_order
  refine ocoInv_of_eq rfl (ocoInv_check_oco _ order.id (ocoInv_of_eq (emit_oco s _) h))

theorem ocoInv_expire_oco_removal (s : EngineState) (i : Nat) (h : OcoInv s) :
    OcoInv (expire_oco_removal s i) := by
  unfold expire_oco_removal
  rcases hb : lookupA s.atomic_child_orders i with _ | children
  · simp only [hb]
    exact ocoInv_check_oco s i h
  · simp only [hb]
    rcases children with _ | ⟨c, rest⟩
    · exact ocoInv_of_eq rfl h
    · rcases hc : lookupA s.oco_orders c.id with _ | other
      · simp only [hc]
        exact h
      · simp only [hc]
        have hne : other ≠ c.id := by
          intro he
          subst he
          exact h.2 c.id hc
        have hcond : (lookupA (eraseA s.oco_orders c.id) other).isSome = true := by
          rw [lookupA_eraseA_of_ne _ _ _ hne, h.1 c.id other hc]
          rfl
        rw [if_pos hcond]
        exact symL_remove _ c.id other h hc

theorem ocoInv_expire_order (s : EngineState) (order : Order) (h : OcoInv s) :
    OcoInv (expire_order s order) := by
  unfold expire_order
  exact ocoInv_of_eq rfl
    (ocoInv_expire_oco_removal _ order.id (ocoInv_of_eq (emit_oco s _) h))

theorem ocoInv_tick_expiry (s : EngineState) (time_now : Int) (order : Order)
    (h : OcoInv s) : OcoInv (tick_expiry s time_now order) := by
  unfold tick_expiry
  rcases he : order.expire_time with _ | t
  · simp only [he]
    exact h
  · simp only [he]
    split
    · split
      · exact ocoInv_expire_order _ order (ocoInv_of_eq rfl h)
      · exact h
    · exact h

theorem ocoInv_run (ctx : Ctx) :
    ∀ (fuel : Nat) (s : EngineState) (c : OrderCall),
      OcoInv s → OcoInv (run_order fuel ctx s c) := by
  intro fuel
  induction fuel with
  | zero =>
      intro s c h
      exact ocoInv_of_eq (by simp [run_order]) h
  | succ fuel ih =>
      intro s c h
      cases c with
      | process order =>
          rw [show run_order (fuel + 1) ctx s (.process order) =
            process_body (run_order fuel) ctx s order from rfl]
          unfold process_body
          split
          · exact ocoInv_of_eq rfl h
          · split
            · exact ocoInv_reject_order s order _ h
            · split
              · exact ocoInv_reject_order s order _ h
              · split
                · exact ocoInv_reject_order s order _ h
                · split
                  · exact ocoInv_reject_order s order _ h
                  · split
                    · unfold market_fill
                      split <;>
                        exact ih _ _ (ocoInv_of_eq (emit_oco s _) h)
                    · exact ocoInv_of_eq (oco_place_working _ order) h
      | fill order price =>
          rw [show run_order (fuel + 1) ctx s (.fill order price) =
            fill_body (run_order fuel) ctx s order price from rfl]
          unfold fill_body
          have h3 : OcoInv (check_oco_order
              (emit (fill_adjust ctx s order price)
                (.OrderFilled order.id order.symbol order.side order.quantity price))
              order.id) := by
            refine ocoInv_check_oco _ order.id (ocoInv_of_eq ?_ h)
            rw [emit_oco, (fill_adjust_frame ctx s order price).1]
          unfold fill_children
          rcases hbrk : lookupA (check_oco_order
              (emit (fill_adjust ctx s order price)
                (Event.OrderFilled order.id order.symbol order.side order.quantity price))
              order.id).atomic_child_orders order.id with _ | children
          · simp only [hbrk]
            exact h3
          · simp only [hbrk]
            refine ocoInv_of_eq (oco_fill_discard _ _)
              (foldl_preserve ?_ children _ h3)
            intro t child ht
            by_cases hcp : completed (getState t child.id) = true
            · rw [if_pos hcp]
              exact ht
            · rw [if_neg hcp]
              exact ih _ _ ht

theorem ocoInv_tick_match (ctx : Ctx) (fuel : Nat) (s : EngineState) (tick : Tick)
    (time_now : Int) (order : Order) (h : OcoInv s) :
    OcoInv (tick_match_order fuel ctx s tick time_now order) := by
  unfold tick_match_order
  split
  · exact h
  · split
    · exact h
    · split
      · exact ocoInv_run ctx fuel _ _ (ocoInv_of_eq (oco_tick_del_working s order.id) h)
      · exact ocoInv_tick_expiry s time_now order h

theorem ocoInv_process_tick (ctx : Ctx) (fuel : Nat) (s : EngineState) (tick : Tick)
    (h : OcoInv s) : OcoInv (process_tick fuel ctx s tick) := by
  unfold process_tick tick_scan
  have h1 : OcoInv (tick_day ctx { s with market := setA s.market tick.symbol tick }
      tick.timestamp) := by
    refine ocoInv_of_eq ?_ h
    unfold tick_day
    split <;> rfl
  have h2 : OcoInv (tick_rollover ctx
      (tick_day ctx { s with market := setA s.market tick.symbol tick } tick.timestamp)
      tick.timestamp) := by
    unfold tick_rollover
    rcases hrt : (tick_day ctx { s with market := setA s.market tick.symbol tick }
        tick.timestamp).rollover_time with _ | rt
    · simp only [hrt]
      exact h1
    · simp only [hrt]
      split
      · exact ocoInv_of_eq (by rw [show ∀ (x : EngineState), ({ x with
          rollover_applied := true } : EngineState).oco_orders = x.oco_orders from
          fun _ => rfl, oco_apply_rollover]) h1
      · exact h1
  split
  · exact h2
  · exact foldl_preserve (P := OcoInv)
      (fun t order ht => ocoInv_tick_match ctx fuel t tick tick.timestamp order ht) _ _ h2

theorem ocoInv_cancel (s : EngineState) (order_id : Nat) (h : OcoInv s) :
    OcoInv (cancel_order s order_id) := by
  unfold cancel_order
  split
  · exact ocoInv_of_eq (emit_oco s _) h
  · refine ocoInv_check_oco _ order_id (ocoInv_of_eq ?_ h)
    rw [show ∀ (x : EngineState) (i : Nat), ({ x with
      working_orders := eraseW x.working_orders i } : EngineState).oco_orders = x.oco_orders
      from fun _ _ => rfl, emit_oco]

theorem ocoInv_modify (ctx : Ctx) (s : EngineState) (order_id : Nat)
    (modified_quantity : Rat) (modified_price : Int) (h : OcoInv s) :
    OcoInv (modify_order ctx s order_id modified_quantity modified_price) := by
  unfold modify_order
  split
  · exact ocoInv_of_eq (emit_oco s _) h
  · split
    · exact ocoInv_of_eq rfl h
    · split
      · exact ocoInv_of_eq rfl h
      · split
        · exact ocoInv_reject_order s _ _ h
        · exact ocoInv_of_eq (emit_oco s _) h

/-- The freshness admissibility condition of the amended claim: within an
atomic submission the stop-loss and take-profit ids are distinct and
neither is already a key of the OCO map. -/
def Wfresh : EngineState → Order → Order → Option Order → Prop :=
  fun s _ stop_loss take_profit =>
    ∀ t, take_profit = some t →
      stop_loss.id ≠ t.id ∧
      lookupA s.oco_orders stop_loss.id = none ∧
      lookupA s.oco_orders t.id = none

theorem ocoInv_submit (ctx : Ctx) (fuel : Nat) (s : EngineState) (order : Order)
    (h : OcoInv s) : OcoInv (submit_order fuel ctx s order) := by
  unfold submit_order
  exact ocoInv_run ctx fuel _ _ (ocoInv_of_eq (emit_oco s _) h)

/-- C5 (amended): with fresh, distinct stop-loss/take-profit ids at every
atomic submission, the OCO map is symmetric and self-pair-free in every
reachable state. -/
theorem oco_symmetry (ctx : Ctx) (s : EngineState)
    (h : ReachableG ctx Wfresh Vtrue s) :
    (∀ a b, lookupA s.oco_orders a = some b ↔ lookupA s.oco_orders b = some a) ∧
    (∀ a, lookupA s.oco_orders a ≠ some a) := by
  have hinv : OcoInv s := by
    induction h with
    | init => exact ⟨fun a b hab => by simp [initState, lookupA] at hab, fun a hab => by
        simp [initState, lookupA] at hab⟩
    | tick fuel t _ ih => exact ocoInv_process_tick _ fuel _ t ih
    | submit fuel order _ _ ih => exact ocoInv_submit _ fuel _ order ih
    | submit_atomic fuel entry stop_loss take_profit _ hW ih =>
        unfold submit_atomic_order
        apply ocoInv_submit
        rcases htp : take_profit with _ | tp
        · exact ocoInv_of_eq rfl ih
        · obtain ⟨hne, hsl, htpf⟩ := hW tp htp
          refine ocoInv_of_eq rfl ?_
          exact symL_insert _ tp.id stop_loss.id ih htpf hsl (fun he => hne he.symm)
    | cancel order_id _ ih => exact ocoInv_cancel _ order_id ih
    | modify order_id q p _ ih => exact ocoInv_modify _ _ order_id q p ih
    | inquiry _ ih => exact ocoInv_of_eq (emit_oco _ _) ih
    | adjust symbol order_side average_price filled_quantity position _ ih =>
        refine ocoInv_of_eq ?_ ih
        exact (adjust_account_frame _ _ symbol order_side average_price filled_quantity
          position).1
    | rollover timestamp iso_week_day _ ih =>
        exact ocoInv_of_eq (oco_apply_rollover _ _ timestamp iso_week_day) ih
  exact ⟨fun a b => ⟨fun hab => hinv.1 a b hab, fun hba => hinv.1 b a hba⟩, hinv.2⟩

theorem oco_symmetry_witness :
    ¬ lookupA (initState ctx0).oco_orders 1 = some 1 :=
  (oco_symmetry ctx0 (initState ctx0) ReachableG.init).2 1

/-! The counterexample to the claim as stated: two atomic submissions whose
take-profit ids collide (each submission's own stop-loss and take-profit
ids are distinct, as the claim requires) overwrite one OCO entry and break
symmetry. -/

def e1 : Order := ⟨10, 7, .BUY, .MARKET, 5, 0, none⟩

def sl1 : Order := ⟨1, 7, .SELL, .STOP, 5, 0, none⟩

def tp1 : Order := ⟨2, 7, .SELL, .LIMIT, 5, 0, none⟩

def e2 : Order := ⟨11, 7, .BUY, .MARKET, 5, 0, none⟩

def sl2 : Order := ⟨3, 7, .SELL, .STOP, 5, 0, none⟩

def tp2 : Order := ⟨2, 7, .SELL, .LIMIT, 5, 0, none⟩

def cex_state : EngineState :=
  submit_atomic_order 10 ctx0
    (submit_atomic_order 10 ctx0 (initState ctx0) e1 sl1 (some tp1)) e2 sl2 (some tp2)

/-- The distinctness condition the claim as stated assumes: stop-loss and
take-profit ids are distinct within each atomic submission. -/
def Wdist : EngineState → Order → Order → Option Order → Prop :=
  fun _ _ stop_loss take_profit => ∀ t, take_profit = some t → stop_loss.id ≠ t.id

/-- C5 (counterexample): a state reachable via public commands with distinct
stop-loss/take-profit ids in each atomic submission whose OCO map maps 1 to
2 but does not map 2 back to 1. -/
theorem oco_symmetry_cex :
    ReachableG ctx0 Wdist Vtrue cex_state ∧
    lookupA cex_state.oco_orders 1 = some 2 ∧
    ¬ lookupA cex_state.oco_orders 2 = some 1 := by
  refine ⟨?_, by decide, by decide⟩
  exact ReachableG.submit_atomic 10 e2 sl2 (some tp2)
    (ReachableG.submit_atomic 10 e1 sl1 (some tp1) ReachableG.init
      (by intro t ht; cases ht; decide))
    (by intro t ht; cases ht; decide)

/-! ## C6: atomic child confinement -/

/-- The ids of the working orders. -/
def wIds (s : EngineState) : List Nat := s.working_orders.map (fun o => o.id)

/-- The ids of all bracket children of an atomic-children map. -/
def childIdsL : List (Nat × List Order) → List Nat
  | [] => []
  | pr :: rest => pr.2.map (fun o => o.id) ++ childIdsL rest

/-- The ids of all bracket children of the engine state. -/
def childIds (s : EngineState) : List Nat := childIdsL s.atomic_child_orders

/-- The confinement invariant, relativised to a set `X` of bracket keys
currently being worked (whose children are allowed into the working set
mid-`_fill_order`): children of every other bracket are not working, and
bracket-children ids are globally distinct. -/
def ConfInvX (s : EngineState) (X : List Nat) : Prop :=
  (∀ pr ∈ s.atomic_child_orders, pr.1 ∉ X → ∀ c ∈ pr.2, c.id ∉ wIds s) ∧
  (childIds s).Nodup

theorem confInvX_mono {s : EngineState} {X X' : List Nat} (hx : ∀ i ∈ X, i ∈ X')
    (h : ConfInvX s X) : ConfInvX s X' :=
  ⟨fun pr hpr hnx => h.1 pr hpr (fun hmem => hnx (hx _ hmem)), h.2⟩

theorem mem_childIdsL {l : List (Nat × List Order)} {pr : Nat × List Order} {c : Order}
    (hpr : pr ∈ l) (hc : c ∈ pr.2) : c.id ∈ childIdsL l := by
  induction l with
  | nil => cases hpr
  | cons p rest ih =>
      rw [List.mem_cons] at hpr
      rcases hpr with h | h
      · rw [childIdsL, List.mem_append]
        exact Or.inl (List.mem_map.2 ⟨c, h ▸ hc, rfl⟩)
      · rw [childIdsL, List.mem_append]
        exact Or.inr (ih h)

theorem lookupA_mem {α : Type} {l : List (Nat × α)} {k : Nat} {v : α}
    (h : lookupA l k = some v) : (k, v) ∈ l := by
  induction l with
  | nil => cases h
  | cons p rest ih =>
      by_cases hp : p.1 = k
      · rw [lookupA, if_pos hp] at h
        injection h with h1
        rw [List.mem_cons]
        left
        rw [← hp, ← h1]
      · rw [lookupA, if_neg hp] at h
        rw [List.mem_cons]
        exact Or.inr (ih h)

theorem childIdsL_sublist {l l' : List (Nat × List Order)} (h : l'.Sublist l) :
    (childIdsL l').Sublist (childIdsL l) := by
  induction h with
  | slnil => exact List.Sublist.refl _
  | cons p _ ih => exact ih.trans (List.sublist_append_right _ _)
  | cons₂ p _ ih => exact List.Sublist.append (List.Sublist.refl _) ih

theorem childIdsL_append (l1 l2 : List (Nat × List Order)) :
    childIdsL (l1 ++ l2) = childIdsL l1 ++ childIdsL l2 := by
  induction l1 with
  | nil => simp [childIdsL]
  | cons p rest ih => simp [childIdsL, ih]

/-- Global child-id distinctness separates the children of distinct bracket
entries. -/
theorem childIds_separate {l : List (Nat × List Order)} (hnd : (childIdsL l).Nodup) :
    ∀ {k : Nat} {ch : List Order}, lookupA l k = some ch →
    ∀ pr ∈ l, pr.1 ≠ k → ∀ c' ∈ pr.2, ∀ c ∈ ch, c'.id ≠ c.id := by
  induction l with
  | nil => intro k ch h; cases h
  | cons p rest ih =>
      intro k ch hlk pr hpr hprk c' hc' c hc
      rw [childIdsL, List.nodup_append] at hnd
      obtain ⟨hnd1, hnd2, hdisj⟩ := hnd
      rw [List.mem_cons] at hpr
      by_cases hpk : p.1 = k
      · rw [lookupA, if_pos hpk] at hlk
        injection hlk with h1
        rcases hpr with h | h
        · exact absurd (h ▸ hpk) hprk
        · intro heq
          exact hdisj (List.mem_map.2 ⟨c, h1 ▸ hc, rfl⟩) (heq ▸ mem_childIdsL h hc')
      · rw [lookupA, if_neg hpk] at hlk
        rcases hpr with h | h
        · intro heq
          have hcin : c.id ∈ childIdsL rest := by
            have := lookupA_mem hlk
            exact mem_childIdsL this hc
          exact hdisj (List.mem_map.2 ⟨c', h ▸ hc', rfl⟩) (heq ▸ hcin)
        · exact ih hnd2 hlk pr h hprk c' hc' c hc

/-- A fold-preservation lemma that also supplies list membership. -/
theorem foldl_preserve_mem {α β : Type} {P : α → Prop} {f : α → β → α} :
    ∀ (l : List β), (∀ a b, b ∈ l → P a → P (f a b)) →
      ∀ a, P a → P (List.foldl f a l) := by
  intro l
  induction l with
  | nil => intro _ a ha; simpa using ha
  | cons b rest ih =>
      intro h a ha
      exact ih (fun a' b' hb' => h a' b' (List.mem_cons_of_mem b hb'))
        (f a b) (h a b (List.mem_cons_self b rest) ha)

/-- State shrinkage: the working set only loses ids and the bracket map is a
sublist.  Such steps preserve the confinement invariant. -/
def Shrink (s s' : EngineState) : Prop :=
  (∀ i, i ∈ wIds s' → i ∈ wIds s) ∧
  s'.atomic_child_orders.Sublist s.atomic_child_orders

theorem shrink_refl (s : EngineState) : Shrink s s :=
  ⟨fun _ h => h, List.Sublist.refl _⟩

theorem shrink_trans {s1 s2 s3 : EngineState} (h1 : Shrink s1 s2) (h2 : Shrink s2 s3) :
    Shrink s1 s3 :=
  ⟨fun i h => h1.1 i (h2.1 i h), h2.2.trans h1.2⟩

theorem shrink_of_eq {s s' : EngineState} (hw : s'.working_orders = s.working_orders)
    (ha : s'.atomic_child_orders = s.atomic_child_orders) : Shrink s s' := by
  constructor
  · intro i h
    rw [wIds, hw] at h
    exact h
  · rw [ha]

theorem confInvX_shrink {s s' : EngineState} {X : List Nat} (hs : Shrink s s')
    (h : ConfInvX s X) : ConfInvX s' X := by
  constructor
  · intro pr hpr hnx c hc hcw
    exact h.1 pr (hs.2.mem hpr) hnx c hc (hs.1 c.id hcw)
  · exact (h.2).sublist (childIdsL_sublist hs.2)

/-! Shrink lemmas: most helpers only remove working orders or brackets. -/

theorem shrink_emit (s : EngineState) (e : Event) : Shrink s (emit s e) :=
  shrink_of_eq (emit_working s e) (emit_atomic s e)

theorem shrink_oco_pair_remove (s : EngineState) (a b : Nat) :
    Shrink s (oco_pair_remove s a b) := by
  unfold oco_pair_remove
  split <;> exact shrink_of_eq rfl rfl

theorem shrink_oco_reject_latent (s : EngineState) (a b : Nat) :
    Shrink s (oco_reject_latent s a b) := by
  unfold oco_reject_latent
  refine foldl_preserve (P := fun t => Shrink s t) ?_ _ s (shrink_refl s)
  intro t pr ht
  refine foldl_preserve (P := fun t' => Shrink s t') ?_ _ t ht
  intro t' child ht'
  by_cases hc : child.id = b
  · rw [if_pos hc]
    exact shrink_trans ht' (shrink_emit t' _)
  · rw [if_neg hc]
    exact ht'

theorem shrink_oco_cancel_working (s : EngineState) (i : Nat) :
    Shrink s (oco_cancel_working s i) := by
  unfold oco_cancel_working
  rcases h : findW s.working_orders i with _ | w
  · simp only [h]
    exact shrink_refl s
  · simp only [h]
    constructor
    · intro j hj
      simp only [wIds, emit_working, List.mem_map] at hj
      obtain ⟨o, ho, hoid⟩ := hj
      exact List.mem_map.2 ⟨o, mem_eraseW_imp ho, hoid⟩
    · exact List.Sublist.refl _

theorem shrink_check_oco (s : EngineState) (i : Nat) : Shrink s (check_oco_order s i) := by
  unfold check_oco_order
  rcases h : lookupA s.oco_orders i with _ | j
  · simp only [h]
    exact shrink_refl s
  · simp only [h]
    exact shrink_trans (shrink_trans (shrink_oco_pair_remove s i j)
      (shrink_oco_reject_latent _ i j)) (shrink_oco_cancel_working _ j)

theorem shrink_clean_up (s : EngineState) (i : Nat) :
    Shrink s (clean_up_child_orders s i) :=
  ⟨fun _ h => h, eraseA_sublist _ _⟩

theorem shrink_reject_order (s : EngineState) (order : Order) (reason : String) :
    Shrink s (reject_order s order reason) := by
  unfold reject_order
  exact shrink_trans (shrink_trans (shrink_emit s _) (shrink_check_oco _ order.id))
    (shrink_clean_up _ order.id)

theorem shrink_expire_oco_removal (s : EngineState) (i : Nat) :
    Shrink s (expire_oco_removal s i) := by
  unfold expire_oco_removal
  rcases h : lookupA s.atomic_child_orders i with _ | children
  · simp only [h]
    exact shrink_check_oco s i
  · simp only [h]
    rcases children with _ | ⟨c, rest⟩
    · exact shrink_of_eq rfl rfl
    · rcases h2 : lookupA s.oco_orders c.id with _ | other
      · simp only [h2]
        exact shrink_refl s
      · simp only [h2]
        split <;> exact shrink_of_eq rfl rfl

theorem shrink_expire_order (s : EngineState) (order : Order) :
    Shrink s (expire_order s order) := by
  unfold expire_order
  exact shrink_trans (shrink_trans (shrink_emit s _) (shrink_expire_oco_removal _ order.id))
    (shrink_clean_up _ order.id)

theorem shrink_tick_del_working (s : EngineState) (i : Nat) :
    Shrink s (tick_del_working s i) := by
  unfold tick_del_working
  split
  · constructor
    · intro j hj
      simp only [wIds, List.mem_map] at hj
      obtain ⟨o, ho, hoid⟩ := hj
      exact List.mem_map.2 ⟨o, mem_eraseW_imp ho, hoid⟩
    · exact List.Sublist.refl _
  · exact shrink_of_eq rfl rfl

theorem shrink_tick_expiry (s : EngineState) (time_now : Int) (order : Order) :
    Shrink s (tick_expiry s time_now order) := by
  unfold tick_expiry
  rcases h : order.expire_time with _ | t
  · simp only [h]
    exact shrink_refl s
  · simp only [h]
    split
    · split
      · refine shrink_trans ?_ (shrink_expire_order _ order)
        constructor
        · intro j hj
          simp only [wIds, List.mem_map] at hj
          obtain ⟨o, ho, hoid⟩ := hj
          exact List.mem_map.2 ⟨o, mem_eraseW_imp ho, hoid⟩
        · exact List.Sublist.refl _
      · exact shrink_refl s
    · exact shrink_refl s

theorem shrink_adjust (ctx : Ctx) (s : EngineState) (symbol : Nat)
    (order_side : OrderSide) (average_price : Int) (filled_quantity : Rat)
    (position : Position) :
    Shrink s (adjust_account ctx s symbol order_side average_price filled_quantity
      position) := by
  obtain ⟨-, ha, hw, -, -, -⟩ :=
    adjust_account_frame ctx s symbol order_side average_price filled_quantity position
  exact shrink_of_eq hw ha

theorem shrink_fill_adjust (ctx : Ctx) (s : EngineState) (order : Order) (price : Int) :
    Shrink s (fill_adjust ctx s order price) := by
  obtain ⟨-, ha, hw, -, -, -⟩ := fill_adjust_frame ctx s order price
  exact shrink_of_eq hw ha

theorem shrink_fill_discard (s : EngineState) (i : Nat) : Shrink s (fill_discard s i) := by
  unfold fill_discard
  split
  · exact ⟨fun _ h => h, eraseA_sublist _ _⟩
  · exact shrink_of_eq rfl rfl

theorem shrink_book_rollover (ctx : Ctx) (s : EngineState) (r : Rat) :
    Shrink s (book_rollover ctx s r) := by
  unfold book_rollover
  split
  · exact shrink_of_eq rfl rfl
  · exact shrink_of_eq (emit_working _ _) (emit_atomic _ _)

theorem shrink_apply_rollover (ctx : Ctx) (s : EngineState) (timestamp iso_week_day : Int) :
    Shrink s (apply_rollover_interest ctx s timestamp iso_week_day) := by
  unfold apply_rollover_interest
  split
  · exact shrink_refl s
  · split
    · exact shrink_of_eq rfl rfl
    · exact shrink_book_rollover ctx s _

theorem shrink_tick_day (ctx : Ctx) (s : EngineState) (time_now : Int) :
    Shrink s (tick_day ctx s time_now) := by
  unfold tick_day
  split <;> exact shrink_of_eq rfl rfl

theorem shrink_cancel_order (s : EngineState) (order_id : Nat) :
    Shrink s (cancel_order s order_id) := by
  unfold cancel_order
  split
  · exact shrink_emit s _
  · refine shrink_trans ?_ (shrink_check_oco _ order_id)
    constructor
    · intro j hj
      simp only [wIds, emit_working, List.mem_map] at hj
      obtain ⟨o, ho, hoid⟩ := hj
      exact List.mem_map.2 ⟨o, mem_eraseW_imp ho, hoid⟩
    · exact List.Sublist.refl _

theorem shrink_modify (ctx : Ctx) (s : EngineState) (order_id : Nat)
    (modified_quantity : Rat) (modified_price : Int) :
    Shrink s (modify_order ctx s order_id modified_quantity modified_price) := by
  unfold modify_order
  split
  · exact shrink_emit s _
  · split
    · exact shrink_of_eq rfl rfl
    · split
      · exact shrink_of_eq rfl rfl
      · split
        · exact shrink_reject_order s _ _
        · exact shrink_emit s _

theorem wIds_place_working (s : EngineState) (order : Order) :
    wIds (place_working s order) = wIds s ++ [order.id] := by
  simp [wIds, place_working]

theorem atomic_place_working (s : EngineState) (order : Order) :
    (place_working s order).atomic_child_orders = s.atomic_child_orders := by
  simp [place_working]

theorem childIds_place_working (s : EngineState) (order : Order) :
    childIds (place_working s order) = childIds s := by
  unfold childIds
  rw [atomic_place_working]

theorem eq_none_of_not_isSome {α : Type} {o : Option α} (h : ¬ o.isSome = true) :
    o = none := by
  cases o with
  | none => rfl
  | some v => exact absurd rfl h

/-- `_process_order`/`_fill_order` preserve the (relativised) confinement
invariant, and never add brackets.  The side condition on a `process` call
states that the processed order's id is not a child id of any bracket
outside the excepted set `X`. -/
theorem conf_run (ctx : Ctx) :
    ∀ (fuel : Nat) (s : EngineState) (c : OrderCall) (X : List Nat),
      ConfInvX s X →
      (∀ o, c = OrderCall.process o →
        ∀ pr ∈ s.atomic_child_orders, pr.1 ∉ X → ∀ c' ∈ pr.2, c'.id ≠ o.id) →
      ConfInvX (run_order fuel ctx s c) X ∧
      (run_order fuel ctx s c).atomic_child_orders.Sublist s.atomic_child_orders := by
  intro fuel
  induction fuel with
  | zero =>
      intro s c X h _
      exact ⟨confInvX_shrink (shrink_of_eq rfl rfl) h, List.Sublist.refl _⟩
  | succ fuel ih =>
      intro s c X h hcond
      cases c with
      | process order =>
          have hcondo := hcond order rfl
          rw [show run_order (fuel + 1) ctx s (.process order) =
            process_body (run_order fuel) ctx s order from rfl]
          unfold process_body
          split
          · exact ⟨confInvX_shrink (shrink_of_eq rfl rfl) h, List.Sublist.refl _⟩
          · split
            · exact ⟨confInvX_shrink (shrink_reject_order s order _) h,
                (shrink_reject_order s order _).2⟩
            · split
              · exact ⟨confInvX_shrink (shrink_reject_order s order _) h,
                  (shrink_reject_order s order _).2⟩
              · split
                · exact ⟨confInvX_shrink (shrink_reject_order s order _) h,
                    (shrink_reject_order s order _).2⟩
                · split
                  · exact ⟨confInvX_shrink (shrink_reject_order s order _) h,
                      (shrink_reject_order s order _).2⟩
                  · have hmk : ∀ p : Int,
                        ConfInvX (run_order fuel ctx (accept_order s order)
                          (.fill order p)) X ∧
                        (run_order fuel ctx (accept_order s order)
                          (.fill order p)).atomic_child_orders.Sublist
                          s.atomic_child_orders := by
                      intro p
                      obtain ⟨hh1, hh2⟩ := ih (accept_order s order) (.fill order p) X
                        (confInvX_shrink (shrink_emit s _) h) (fun o ho => nomatch ho)
                      exact ⟨hh1, by simpa [accept_order] using hh2⟩
                    split
                    · unfold market_fill
                      split
                      · exact hmk _
                      · exact hmk _
                    · refine ⟨⟨?_, ?_⟩, ?_⟩
                      · intro pr hpr hnx c hc hcw
                        rw [wIds_place_working] at hcw
                        rw [atomic_place_working] at hpr
                        rcases List.mem_append.1 hcw with hcw | hcw
                        · exact h.1 pr (by simpa [accept_order] using hpr) hnx c hc
                            (by simpa [accept_order, wIds] using hcw)
                        · simp only [List.mem_singleton] at hcw
                          exact hcondo pr (by simpa [accept_order] using hpr) hnx c hc hcw
                      · rw [show childIds (place_working (accept_order s order) order) =
                          childIds s by rw [childIds_place_working]; simp [childIds, accept_order]]
                        exact h.2
                      · rw [atomic_place_working]
                        exact (shrink_emit s _).2
      | fill order price =>
          rw [show run_order (fuel + 1) ctx s (.fill order price) =
            fill_body (run_order fuel) ctx s order price from rfl]
          unfold fill_body fill_children
          set S3 := check_oco_order
            (emit (fill_adjust ctx s order price)
              (Event.OrderFilled order.id order.symbol order.side order.quantity price))
            order.id with hS3
          have hsh3 : Shrink s S3 := by
            rw [hS3]
            exact shrink_trans (shrink_trans (shrink_fill_adjust ctx s order price)
              (shrink_emit _ _)) (shrink_check_oco _ order.id)
          have h3 : ConfInvX S3 X := confInvX_shrink hsh3 h
          rcases hbrk : lookupA S3.atomic_child_orders order.id with _ | children
          · simp only [hbrk]
            exact ⟨h3, hsh3.2⟩
          · simp only [hbrk]
            have h3' : ConfInvX S3 (order.id :: X) :=
              confInvX_mono (fun i hi => List.mem_cons_of_mem _ hi) h3
            have hstep : ∀ (t : EngineState) (child : Order), child ∈ children →
                (ConfInvX t (order.id :: X) ∧
                  t.atomic_child_orders.Sublist S3.atomic_child_orders) →
                (ConfInvX (if completed (getState t child.id) then t
                    else run_order fuel ctx t (.process child)) (order.id :: X) ∧
                  (if completed (getState t child.id) then t
                    else run_order fuel ctx t (.process child)).atomic_child_orders.Sublist
                    S3.atomic_child_orders) := by
              intro t child hchild ht
              by_cases hcp : completed (getState t child.id) = true
              · rw [if_pos hcp]
                exact ht
              · rw [if_neg hcp]
                have hcnd : ∀ o, OrderCall.process child = OrderCall.process o →
                    ∀ pr ∈ t.atomic_child_orders, pr.1 ∉ (order.id :: X) →
                    ∀ c' ∈ pr.2, c'.id ≠ o.id := by
                  intro o ho
                  cases ho
                  intro pr hpr hnx c' hc'
                  refine childIds_separate h3.2 hbrk pr (ht.2.subset hpr) ?_ c' hc' _ hchild
                  intro he
                  exact hnx (by rw [he]; exact List.mem_cons_self _ _)
                obtain ⟨hh1, hh2⟩ := ih t (.process child) (order.id :: X) ht.1 hcnd
                exact ⟨hh1, hh2.trans ht.2⟩
            have hfold : ConfInvX (children.foldl
                (fun t child => if completed (getState t child.id) then t
                  else run_order fuel ctx t (.process child)) S3) (order.id :: X) ∧
                (children.foldl
                  (fun t child => if completed (getState t child.id) then t
                    else run_order fuel ctx t (.process child))
                  S3).atomic_child_orders.Sublist S3.atomic_child_orders := by
              refine foldl_preserve_mem (P := fun u => ConfInvX u (order.id :: X) ∧
                u.atomic_child_orders.Sublist S3.atomic_child_orders) children ?_ S3
                ⟨h3', List.Sublist.refl _⟩
              exact hstep
            refine ⟨?_, ?_⟩
            · unfold fill_discard
              split
              · refine ⟨?_, ?_⟩
                · intro pr hpr hnx c hc hcw
                  obtain ⟨hpr4, hprne⟩ := mem_of_mem_eraseA hpr
                  refine hfold.1.1 pr hpr4 ?_ c hc hcw
                  intro hmem
                  rw [List.mem_cons] at hmem
                  rcases hmem with hmem | hmem
                  · exact hprne hmem
                  · exact hnx hmem
                · exact (hfold.1.2).sublist (childIdsL_sublist (eraseA_sublist _ _))
              · rename_i hnone
                have hn := eq_none_of_not_isSome hnone
                refine ⟨?_, ?_⟩
                · intro pr hpr hnx c hc hcw
                  refine hfold.1.1 pr hpr ?_ c hc hcw
                  intro hmem
                  rw [List.mem_cons] at hmem
                  rcases hmem with hmem | hmem
                  · have hne := lookupA_ne_none_of_mem hpr
                    rw [hmem] at hne
                    exact hne hn
                  · exact hnx hmem
                · exact hfold.1.2
            · refine List.Sublist.trans ?_ hsh3.2
              unfold fill_discard
              split
              · exact (eraseA_sublist _ _).trans hfold.2
              · exact hfold.2

/-- Plain (un-relativised) confinement invariant. -/
def ConfInv (s : EngineState) : Prop := ConfInvX s []

/-- C6's admissibility condition on plain submissions: child orders are
introduced only via `submit_atomic_order`, so a plain submission never
carries the id of a latent bracket child. -/
def V_conf (s : EngineState) (order : Order) : Prop := order.id ∉ childIds s

/-- C6's admissibility condition on atomic submissions: fresh entry key and
fresh, pairwise-distinct, non-working child ids. -/
def W_conf (s : EngineState) (entry stop_loss : Order)
    (take_profit : Option Order) : Prop :=
  lookupA s.atomic_child_orders entry.id = none ∧
  entry.id ∉ childIds s ∧
  stop_loss.id ∉ childIds s ∧
  stop_loss.id ∉ wIds s ∧
  stop_loss.id ≠ entry.id ∧
  ∀ tp, take_profit = some tp →
    tp.id ∉ childIds s ∧ tp.id ∉ wIds s ∧ tp.id ≠ entry.id ∧ tp.id ≠ stop_loss.id

theorem conf_tick_match (fuel : Nat) (ctx : Ctx) (s : EngineState) (tick : Tick)
    (time_now : Int) (order : Order) (h : ConfInv s) :
    ConfInv (tick_match_order fuel ctx s tick time_now order) := by
  unfold tick_match_order
  split
  · exact h
  · split
    · exact h
    · rcases hfp : tick_fill_price ctx tick order with _ | price
      · simp only [hfp]
        exact confInvX_shrink (shrink_tick_expiry s time_now order) h
      · simp only [hfp]
        exact (conf_run ctx fuel _ (.fill order price) []
          (confInvX_shrink (shrink_tick_del_working s order.id) h)
          (fun o ho => nomatch ho)).1

theorem conf_process_tick (fuel : Nat) (ctx : Ctx) (s : EngineState) (tick : Tick)
    (h : ConfInv s) : ConfInv (process_tick fuel ctx s tick) := by
  unfold process_tick tick_scan
  have h1 : ConfInv (tick_rollover ctx
      (tick_day ctx { s with market := setA s.market tick.symbol tick } tick.timestamp)
      tick.timestamp) := by
    have h0 : ConfInv (tick_day ctx { s with market := setA s.market tick.symbol tick }
        tick.timestamp) :=
      confInvX_shrink (shrink_tick_day ctx _ tick.timestamp)
        (confInvX_shrink (shrink_of_eq rfl rfl) h)
    unfold tick_rollover
    rcases hrt : (tick_day ctx { s with market := setA s.market tick.symbol tick }
        tick.timestamp).rollover_time with _ | rt
    · simp only [hrt]
      exact h0
    · simp only [hrt]
      split
      · exact confInvX_shrink (shrink_of_eq rfl rfl)
          (confInvX_shrink (shrink_apply_rollover ctx _ tick.timestamp
            (ctx.isoweekday_of rt)) h0)
      · exact h0
  split
  · exact h1
  · exact foldl_preserve (P := fun t => ConfInv t)
      (fun t o ht => conf_tick_match fuel ctx t tick tick.timestamp o ht) _ _ h1

theorem conf_submit (fuel : Nat) (ctx : Ctx) (s : EngineState) (order : Order)
    (h : ConfInv s) (hv : V_conf s order) : ConfInv (submit_order fuel ctx s order) := by
  unfold submit_order
  refine (conf_run ctx fuel _ (.process order) []
    (confInvX_shrink (shrink_emit s _) h) ?_).1
  intro o ho
  cases ho
  intro pr hpr hnx c' hc' he
  have hpr' : pr ∈ s.atomic_child_orders := by
    have := hpr
    rw [emit_atomic] at this
    exact this
  exact hv (he ▸ mem_childIdsL hpr' hc')

theorem conf_submit_atomic (fuel : Nat) (ctx : Ctx) (s : EngineState)
    (entry stop_loss : Order) (take_profit : Option Order) (h : ConfInv s)
    (hw : W_conf s entry stop_loss take_profit) :
    ConfInv (submit_atomic_order fuel ctx s entry stop_loss take_profit) := by
  obtain ⟨hlk, hent, hslc, hslw, hslne, htp⟩ := hw
  rcases take_profit with _ | tp
  · have hs2a : setA s.atomic_child_orders entry.id [stop_loss] =
        s.atomic_child_orders ++ [(entry.id, [stop_loss])] :=
      setA_eq_append _ _ _ hlk
    have key : ConfInvX (emit
        { s with atomic_child_orders := setA s.atomic_child_orders entry.id [stop_loss] }
        (Event.OrderSubmitted entry.id)) [] := by
      refine ⟨?_, ?_⟩
      · intro pr hpr hnx c hc hcw
        have hpr' : pr ∈ s.atomic_child_orders ++ [(entry.id, [stop_loss])] := by
          rw [← hs2a]
          exact hpr
        have hcw' : c.id ∈ wIds s := hcw
        rcases List.mem_append.1 hpr' with hm | hm
        · exact h.1 pr hm (List.not_mem_nil _) c hc hcw'
        · rw [List.mem_singleton] at hm
          subst hm
          have hcsl : c = stop_loss := List.mem_singleton.1 hc
          exact hslw (hcsl ▸ hcw')
      · have hcid : childIds (emit
            { s with atomic_child_orders := setA s.atomic_child_orders entry.id [stop_loss] }
            (Event.OrderSubmitted entry.id)) = childIds s ++ [stop_loss.id] := by
          show childIdsL (setA s.atomic_child_orders entry.id [stop_loss]) =
            childIds s ++ [stop_loss.id]
          rw [hs2a, childIdsL_append]
          simp [childIdsL, childIds]
        rw [hcid, List.nodup_append]
        refine ⟨h.2, List.nodup_singleton _, ?_⟩
        intro a ha hb
        rw [List.mem_singleton] at hb
        exact hslc (hb ▸ ha)
    unfold submit_atomic_order submit_order
    refine (conf_run ctx fuel _ (.process entry) [] key ?_).1
    intro o ho
    cases ho
    intro pr hpr hnx c' hc' he
    have hpr' : pr ∈ s.atomic_child_orders ++ [(entry.id, [stop_loss])] := by
      rw [← hs2a]
      exact hpr
    rcases List.mem_append.1 hpr' with hm | hm
    · exact hent (he ▸ mem_childIdsL hm hc')
    · rw [List.mem_singleton] at hm
      subst hm
      have hcsl : c' = stop_loss := List.mem_singleton.1 hc'
      exact hslne (hcsl ▸ he)
  · obtain ⟨htpc, htpw, htpe, htps⟩ := htp tp rfl
    have hs2a : setA s.atomic_child_orders entry.id [stop_loss, tp] =
        s.atomic_child_orders ++ [(entry.id, [stop_loss, tp])] :=
      setA_eq_append _ _ _ hlk
    have key : ConfInvX (emit
        { s with
            oco_orders := setA (setA s.oco_orders tp.id stop_loss.id) stop_loss.id tp.id,
            atomic_child_orders := setA s.atomic_child_orders entry.id [stop_loss, tp] }
        (Event.OrderSubmitted entry.id)) [] := by
      refine ⟨?_, ?_⟩
      · intro pr hpr hnx c hc hcw
        have hpr' : pr ∈ s.atomic_child_orders ++ [(entry.id, [stop_loss, tp])] := by
          rw [← hs2a]
          exact hpr
        have hcw' : c.id ∈ wIds s := hcw
        rcases List.mem_append.1 hpr' with hm | hm
        · exact h.1 pr hm (List.not_mem_nil _) c hc hcw'
        · rw [List.mem_singleton] at hm
          subst hm
          rcases List.mem_cons.1 hc with hcc | hcc
          · subst hcc
            exact hslw hcw'
          · have hct : c = tp := List.mem_singleton.1 hcc
            exact htpw (hct ▸ hcw')
      · have hcid : childIds (emit
            { s with
                oco_orders := setA (setA s.oco_orders tp.id stop_loss.id) stop_loss.id tp.id,
                atomic_child_orders := setA s.atomic_child_orders entry.id [stop_loss, tp] }
            (Event.OrderSubmitted entry.id)) = childIds s ++ [stop_loss.id, tp.id] := by
          show childIdsL (setA s.atomic_child_orders entry.id [stop_loss, tp]) =
            childIds s ++ [stop_loss.id, tp.id]
          rw [hs2a, childIdsL_append]
          simp [childIdsL, childIds]
        rw [hcid, List.nodup_append]
        refine ⟨h.2, ?_, ?_⟩
        · rw [List.nodup_cons]
          exact ⟨fun hh => htps ((List.mem_singleton.1 hh).symm), List.nodup_singleton _⟩
        · intro a ha hb
          rcases List.mem_cons.1 hb with hbb | hbb
          · exact hslc (hbb ▸ ha)
          · exact htpc ((List.mem_singleton.1 hbb) ▸ ha)
    unfold submit_atomic_order submit_order
    refine (conf_run ctx fuel _ (.process entry) [] key ?_).1
    intro o ho
    cases ho
    intro pr hpr hnx c' hc' he
    have hpr' : pr ∈ s.atomic_child_orders ++ [(entry.id, [stop_loss, tp])] := by
      rw [← hs2a]
      exact hpr
    rcases List.mem_append.1 hpr' with hm | hm
    · exact hent (he ▸ mem_childIdsL hm hc')
    · rw [List.mem_singleton] at hm
      subst hm
      rcases List.mem_cons.1 hc' with hcc | hcc
      · subst hcc
        exact hslne he
      · have hct : c' = tp := List.mem_singleton.1 hcc
        exact htpe (hct ▸ he)

/-- **C6** (atomic child confinement).  For every state reachable through the
public interface under the claim's hypothesis that child orders are
introduced only via `submit_atomic_order` (formalised by `V_conf`/`W_conf`:
submitted ids never collide with latent bracket-child ids), no child of a
pending bracket is ever in the working set (and bracket-child ids stay
globally distinct); moreover, whenever a parent's fill finds its bracket,
`_fill_order` processes exactly the non-terminal children as standalone
orders via `_process_order` and then discards the bracket entry, which is
absent (or the run aborted) after every fill. -/
theorem atomic_child_confinement (ctx : Ctx) (s : EngineState)
    (h : ReachableG ctx W_conf V_conf s) :
    ((∀ pr ∈ s.atomic_child_orders, ∀ c ∈ pr.2, c.id ∉ wIds s) ∧
      (childIds s).Nodup) ∧
    (∀ (fuel : Nat) (t : EngineState) (order : Order) (price : Int)
        (children : List Order),
      lookupA (check_oco_order (emit (fill_adjust ctx t order price)
          (Event.OrderFilled order.id order.symbol order.side order.quantity price))
          order.id).atomic_child_orders order.id = some children →
      run_order (fuel + 1) ctx t (.fill order price) =
        fill_discard
          (children.foldl
            (fun u child => if completed (getState u child.id) then u
              else run_order fuel ctx u (.process child))
            (check_oco_order (emit (fill_adjust ctx t order price)
              (Event.OrderFilled order.id order.symbol order.side order.quantity price))
              order.id))
          order.id) ∧
    (∀ (fuel : Nat) (t : EngineState) (order : Order) (price : Int),
      lookupA (run_order (fuel + 1) ctx t (.fill order price)).atomic_child_orders
        order.id = none ∨
      (run_order (fuel + 1) ctx t (.fill order price)).aborted = true) := by
  refine ⟨?_, ?_, ?_⟩
  · have hinv : ConfInv s := by
      induction h with
      | init => exact ⟨fun pr hpr => absurd hpr (List.not_mem_nil _), List.nodup_nil⟩
      | tick fuel t _ ih => exact conf_process_tick fuel ctx _ t ih
      | submit fuel order _ hv ih => exact conf_submit fuel ctx _ order ih hv
      | submit_atomic fuel entry stop_loss take_profit _ hw ih =>
          exact conf_submit_atomic fuel ctx _ entry stop_loss take_profit ih hw
      | cancel order_id _ ih => exact confInvX_shrink (shrink_cancel_order _ order_id) ih
      | modify order_id mq mp _ ih =>
          exact confInvX_shrink (shrink_modify ctx _ order_id mq mp) ih
      | inquiry _ ih => exact confInvX_shrink (shrink_emit _ _) ih
      | adjust symbol order_side average_price filled_quantity position _ ih =>
          exact confInvX_shrink
            (shrink_adjust ctx _ symbol order_side average_price filled_quantity position) ih
      | rollover timestamp iso_week_day _ ih =>
          exact confInvX_shrink (shrink_apply_rollover ctx _ timestamp iso_week_day) ih
    exact ⟨fun pr hpr c hc => hinv.1 pr hpr (List.not_mem_nil _) c hc, hinv.2⟩
  · intro fuel t order price children hch
    rw [show run_order (fuel + 1) ctx t (.fill order price) =
      fill_body (run_order fuel) ctx t order price from rfl]
    unfold fill_body fill_children
    simp only [hch]
  · intro fuel t order price
    rw [show run_order (fuel + 1) ctx t (.fill order price) =
      fill_body (run_order fuel) ctx t order price from rfl]
    unfold fill_body fill_children
    rcases hbrk : lookupA (check_oco_order
        (emit (fill_adjust ctx t order price)
          (Event.OrderFilled order.id order.symbol order.side order.quantity price))
        order.id).atomic_child_orders order.id with _ | children
    · simp only [hbrk]
      exact Or.inl trivial
    · simp only [hbrk]
      unfold fill_discard
      split
      · exact Or.inl (lookupA_eraseA_self _ _)
      · exact Or.inr rfl

/-- Witness for C6 at a concrete reachable state: one atomic submission into
the fresh engine. -/
theorem atomic_child_confinement_witness :
    (∀ pr ∈ (submit_atomic_order 3 ctx0 (initState ctx0) e1 sl1
        (some tp1)).atomic_child_orders, ∀ c ∈ pr.2,
      c.id ∉ wIds (submit_atomic_order 3 ctx0 (initState ctx0) e1 sl1 (some tp1))) ∧
    (childIds (submit_atomic_order 3 ctx0 (initState ctx0) e1 sl1 (some tp1))).Nodup :=
  (atomic_child_confinement ctx0 _
    (ReachableG.submit_atomic 3 e1 sl1 (some tp1) ReachableG.init
      ⟨rfl, by decide, by decide, by decide, by decide,
        fun tp htp => by
          cases htp
          exact ⟨by decide, by decide, by decide, by decide⟩⟩)).1

end Backtest
